import Mathlib

/-!
Shallow embedding of the game-state engine of `world.py` (class `World`):
board representation, wall placement (`set_barrier`), bounded-BFS move
validation (`check_valid_step`), union-find endgame detection
(`check_endgame`), the fallback move generator (`random_walk`), the
per-turn state machine (`World.step`) and construction (`worldInit`).

Conventions of the embedding:
* A cell position is a pair of integers `(row, column)`, as in the source.
* The numpy array `chess_board` (shape `N × N × 4` of booleans) is embedded
  as a total function `Int → Int → Nat → Bool`; all theorems about world
  behaviour carry the border/bounds hypotheses under which the source only
  ever indexes the array inside its domain, except for `set_barrier`,
  whose mirrored write is the one place the source can index outside
  `[0, N)`: there numpy semantics (negative indices wrap, indices `≥ N`
  raise `IndexError`) are modelled exactly via `npIndex`.
* Randomness (`np.random.randint`) is modelled by an explicit stream
  `rng : Nat → Nat` of draws together with a running index; a call
  `randint(0, k)` consumes one draw `n` and yields `n % k`.
* The unbounded `while` loops of `__init__` take an explicit fuel and
  return `none` when it runs out; the BFS and union-find recursions use a
  fuel that is proved (or chosen) large enough.
-/

/-- A cell position `(row, column)`. -/
abbrev Pos : Type := Int × Int

/-- The wall grid `chess_board`: `b r c d` is the wall bit of cell
`(r, c)` in direction `d` (0 = up, 1 = right, 2 = down, 3 = left). -/
abbrev Board : Type := Int → Int → Nat → Bool

/-- `self.moves = ((-1, 0), (0, 1), (1, 0), (0, -1))` (Up, Right, Down, Left). -/
def moves : Nat → Int × Int
  | 0 => (-1, 0)
  | 1 => (0, 1)
  | 2 => (1, 0)
  | 3 => (0, -1)
  | _ => (0, 0)

/-- `self.opposites = {0: 2, 1: 3, 2: 0, 3: 1}`. -/
def opposites : Nat → Nat
  | 0 => 2
  | 1 => 3
  | 2 => 0
  | 3 => 1
  | _ => 0

/-- Numpy scalar indexing into an axis of length `N`: indices in `[0, N)`
are used as is, indices in `[-N, 0)` wrap to `i + N`, anything else
raises `IndexError` (modelled as `none`). -/
def npIndex (N : Nat) (i : Int) : Option Int :=
  if 0 ≤ i ∧ i < (N : Int) then some i
  else if -(N : Int) ≤ i ∧ i < 0 then some (i + (N : Int))
  else none

/-- Set one wall bit of the grid. -/
def setWallBit (b : Board) (r c : Int) (d : Nat) : Board :=
  fun r' c' d' => if r' = r ∧ c' = c ∧ d' = d then true else b r' c' d'

/-- `World.set_barrier(r, c, dir)`: sets `chess_board[r, c, dir]` and the
mirrored bit `chess_board[r + move[0], c + move[1], opposites[dir]]`,
with numpy indexing semantics for both writes; `none` models the
`IndexError` raised when an index is `≥ N` (the source mutates the first
bit before raising, but no caller observes that intermediate state). -/
def set_barrier (N : Nat) (b : Board) (r c : Int) (d : Nat) : Option Board :=
  match npIndex N r, npIndex N c with
  | some r0, some c0 =>
    let b1 := setWallBit b r0 c0 d
    match npIndex N (r + (moves d).1), npIndex N (c + (moves d).2) with
    | some r1, some c1 => some (setWallBit b1 r1 c1 (opposites d))
    | _, _ => none
  | _, _ => none

/-- The freshly zeroed board with the four borders set
(`chess_board[0,:,0]`, `chess_board[:,0,3]`, `chess_board[-1,:,2]`,
`chess_board[:,-1,1]`); bits outside the array's index domain are `false`. -/
def initBoard (N : Nat) : Board :=
  fun r c d =>
    if 0 ≤ r ∧ r < (N : Int) ∧ 0 ≤ c ∧ c < (N : Int) ∧ d < 4 then
      decide ((r = 0 ∧ d = 0) ∨ (c = 0 ∧ d = 3) ∨
        (r = (N : Int) - 1 ∧ d = 2) ∨ (c = (N : Int) - 1 ∧ d = 1))
    else false

/-- `World.check_boundary`. -/
def check_boundary (N : Nat) (p : Pos) : Bool :=
  decide (0 ≤ p.1 ∧ p.1 < (N : Int) ∧ 0 ≤ p.2 ∧ p.2 < (N : Int))

/-- A position is inside the `N × N` grid. -/
def InB (N : Nat) (p : Pos) : Prop :=
  0 ≤ p.1 ∧ p.1 < (N : Int) ∧ 0 ≤ p.2 ∧ p.2 < (N : Int)

instance (N : Nat) (p : Pos) : Decidable (InB N p) := by
  unfold InB; infer_instance

/-- The border invariant of §3: every boundary-facing edge carries a wall. -/
def BorderInv (N : Nat) (b : Board) : Prop :=
  ∀ r : Nat, r < N → ∀ c : Nat, c < N →
    (r = 0 → b r c 0 = true) ∧ (c = 0 → b r c 3 = true) ∧
    (r = N - 1 → b r c 2 = true) ∧ (c = N - 1 → b r c 1 = true)

/-- The mirroring invariant of §3: for an in-bounds cell whose neighbour in
direction `d` is in bounds, the two facing wall bits agree. -/
def MirrorInv (N : Nat) (b : Board) : Prop :=
  ∀ r : Nat, r < N → ∀ c : Nat, c < N → ∀ d : Nat, d < 4 →
    InB N ((r : Int) + (moves d).1, (c : Int) + (moves d).2) →
    b r c d = b ((r : Int) + (moves d).1) ((c : Int) + (moves d).2) (opposites d)

instance (N : Nat) (b : Board) : Decidable (BorderInv N b) := by
  unfold BorderInv; infer_instance

instance (N : Nat) (b : Board) : Decidable (MirrorInv N b) := by
  unfold MirrorInv; infer_instance

/-! ### `check_valid_step`: the bounded BFS -/

/-- The inner `for dir, move in enumerate(self.moves)` loop of the BFS in
`check_valid_step`, over the remaining direction list: returns the list of
newly enqueued states (in order, with their step counts), the updated
visited list, and whether `end_pos` was discovered (`is_reached`). -/
def processDirs (b : Board) (adv endP : Pos) (cur : Pos) (curStep : Nat) :
    List Nat → List Pos → (List (Pos × Nat) × List Pos × Bool)
  | [], visited => ([], visited, false)
  | d :: ds, visited =>
    if b cur.1 cur.2 d then processDirs b adv endP cur curStep ds visited
    else
      let np : Pos := (cur.1 + (moves d).1, cur.2 + (moves d).2)
      if np = adv ∨ np ∈ visited then processDirs b adv endP cur curStep ds visited
      else if np = endP then ([], visited, true)
      else
        let rest := processDirs b adv endP cur curStep ds (np :: visited)
        ((np, curStep + 1) :: rest.1, rest.2.1, rest.2.2)

/-- The `while state_queue and not is_reached` loop of `check_valid_step`,
with explicit fuel (the loop always terminates; the fuel is proved
sufficient below).  `B` is `self.max_step`. -/
def bfsLoop (b : Board) (B : Nat) (adv endP : Pos) :
    Nat → List (Pos × Nat) → List Pos → Bool
  | _, [], _ => false
  | 0, _ :: _, _ => false
  | fuel + 1, (cur, d) :: rest, visited =>
    if d = B then false
    else
      let res := processDirs b adv endP cur d [0, 1, 2, 3] visited
      if res.2.2 then true
      else bfsLoop b B adv endP fuel (rest ++ res.1) res.2.1

/-- Fuel that is large enough for `bfsLoop` (proved below): every visited
cell lies within Chebyshev distance `B` of the start. -/
def bfsFuel (B : Nat) : Nat := (2 * B + 1) ^ 2 + 1

/-- `World.check_valid_step(start_pos, end_pos, barrier_dir)`.  The source
reads `self.max_step` (`B`) and the adversary position (`adv`) from the
world state; they are explicit parameters here. -/
def check_valid_step (b : Board) (B : Nat) (adv : Pos)
    (start_pos end_pos : Pos) (barrier_dir : Nat) : Bool :=
  if b end_pos.1 end_pos.2 barrier_dir then false
  else if start_pos = end_pos then true
  else bfsLoop b B adv end_pos (bfsFuel B) [(start_pos, 0)] [start_pos]

/-! ### `check_endgame`: union-find over the cells -/

/-- The union-find parent map (the dict `father`), as an association list
whose most recent binding wins; keys never bound behave as their own
parents (the dict initialisation `father[(r, c)] = (r, c)` for all cells,
and the border hypotheses of the theorems keep the source from touching
any other key, which would raise `KeyError`). -/
abbrev FMap : Type := List (Pos × Pos)

/-- Look up a parent. -/
def fapp (f : FMap) (p : Pos) : Pos :=
  ((f.find? fun e => decide (e.1 = p)).map Prod.snd).getD p

/-- Bind `father[p] = v`. -/
def fupd (f : FMap) (p v : Pos) : FMap := (p, v) :: f

/-- The recursive `find` with path compression, threading the mutated
parent map; the fuel bound is proved sufficient below. -/
def ufFind (f : FMap) (p : Pos) : Nat → Pos × FMap
  | 0 => (p, f)
  | fuel + 1 =>
    if fapp f p = p then (p, f)
    else
      let r := ufFind f (fapp f p) fuel
      (r.1, fupd r.2 p r.1)

/-- Fuel for every `find` call inside `check_endgame`: parent chains never
get longer than the number of unions performed, which is at most the
number of (right/down) edges `2 * N * N`. -/
def findFuel (N : Nat) : Nat := 2 * N * N + 1

/-- All cells `(r, c)`, `0 ≤ r, c < N`, in the row-major order in which the
source iterates them. -/
def allCells (N : Nat) : List Pos :=
  (List.range N).flatMap fun r =>
    (List.range N).map fun c => (Int.ofNat r, Int.ofNat c)

/-- The edge-processing order of `check_endgame`'s union loop: for each
cell in row-major order, direction 1 (right) then 2 (down). -/
def edgeSeq (N : Nat) : List (Pos × Nat) :=
  (allCells N).flatMap fun p => [(p, 1), (p, 2)]

/-- One iteration of the union loop body for cell `p` and direction
`d ∈ {1, 2}`: skip if a wall blocks the edge, otherwise find both roots
(with compression) and union them if they differ
(`father[pos_a] = pos_b`). -/
def edgeStep (N : Nat) (b : Board) (f : FMap) (pd : Pos × Nat) : FMap :=
  let p := pd.1
  if b p.1 p.2 pd.2 then f
  else
    let q : Pos := (p.1 + (moves pd.2).1, p.2 + (moves pd.2).2)
    let ra := ufFind f p (findFuel N)
    let rb := ufFind ra.2 q (findFuel N)
    if ra.1 = rb.1 then rb.2 else fupd rb.2 ra.1 rb.1

/-- The final `find((r, c))`-for-every-cell pass (full path compression). -/
def compressAll (N : Nat) (f : FMap) : FMap :=
  (allCells N).foldl (fun g p => (ufFind g p (findFuel N)).2) f

/-- The parent map after the union loop and the final compression pass of
`check_endgame`. -/
def ufFinal (N : Nat) (b : Board) : FMap :=
  compressAll N ((edgeSeq N).foldl (edgeStep N b) [])

/-- `p0_r = find(tuple(self.p0_pos))` together with the map it leaves. -/
def findP0 (N : Nat) (b : Board) (p0_pos : Pos) : Pos × FMap :=
  ufFind (ufFinal N b) p0_pos (findFuel N)

/-- `p1_r = find(tuple(self.p1_pos))` together with the map it leaves. -/
def findP1 (N : Nat) (b : Board) (p0_pos p1_pos : Pos) : Pos × FMap :=
  ufFind (findP0 N b p0_pos).2 p1_pos (findFuel N)

/-- `p0_score = list(father.values()).count(p0_r)`: how many of the cells'
final parents equal player 0's root. -/
def p0_score (N : Nat) (b : Board) (p0_pos p1_pos : Pos) : Nat :=
  (allCells N).countP fun p =>
    decide (fapp (findP1 N b p0_pos p1_pos).2 p = (findP0 N b p0_pos).1)

/-- `p1_score = list(father.values()).count(p1_r)`. -/
def p1_score (N : Nat) (b : Board) (p0_pos p1_pos : Pos) : Nat :=
  (allCells N).countP fun p =>
    decide (fapp (findP1 N b p0_pos p1_pos).2 p = (findP1 N b p0_pos p1_pos).1)

/-- `World.check_endgame()`: union-find over all cells, union across every
unwalled right/down edge, then full compression, the two players' roots,
and the two scores as occurrence counts among the parent-map values. -/
def check_endgame (N : Nat) (b : Board) (p0_pos p1_pos : Pos) :
    Bool × Nat × Nat :=
  if (findP0 N b p0_pos).1 = (findP1 N b p0_pos p1_pos).1 then
    (false, p0_score N b p0_pos p1_pos, p1_score N b p0_pos p1_pos)
  else (true, p0_score N b p0_pos p1_pos, p1_score N b p0_pos p1_pos)

/-! ### `random_walk`: the fallback move generator -/

/-- The list `allowed_dirs` of `random_walk`: directions from `p` that are
not wall-blocked and do not step onto the adversary. -/
def rwAllowed (b : Board) (adv p : Pos) : List Nat :=
  (List.range 4).filter fun d =>
    !b p.1 p.2 d && !decide ((p.1 + (moves d).1, p.2 + (moves d).2) = adv)

/-- The `for _ in range(steps)` walk loop of `random_walk`: arguments are
the remaining step count, the current index into the random stream, and
the current position; returns the final position and stream index.  Each
non-breaking iteration consumes one draw to pick among `allowed_dirs`. -/
def walkLoop (b : Board) (adv : Pos) (rng : Nat → Nat) :
    Nat → Nat → Pos → Pos × Nat
  | 0, i, p => (p, i)
  | k + 1, i, p =>
    if h : (rwAllowed b adv p).length = 0 then (p, i)
    else
      walkLoop b adv rng k (i + 1)
        (p.1 + (moves ((rwAllowed b adv p).get
          ⟨rng i % (rwAllowed b adv p).length, Nat.mod_lt _ (Nat.pos_of_ne_zero h)⟩)).1,
         p.2 + (moves ((rwAllowed b adv p).get
          ⟨rng i % (rwAllowed b adv p).length, Nat.mod_lt _ (Nat.pos_of_ne_zero h)⟩)).2)

/-- The draw `steps = np.random.randint(0, max_step + 1)`. -/
def rwSteps (B : Nat) (rng : Nat → Nat) : Nat := rng 0 % (B + 1)

/-- The final `(my_pos, stream index)` after the walk of `random_walk`. -/
def rwFin (B : Nat) (b : Board) (my adv : Pos) (rng : Nat → Nat) : Pos × Nat :=
  walkLoop b adv rng (rwSteps B rng) 1 my

/-- The list `allowed_barriers` of `random_walk` at cell `p`. -/
def rwBarriers (b : Board) (p : Pos) : List Nat :=
  (List.range 4).filter fun i => !b p.1 p.2 i

/-- `World.random_walk(my_pos, adv_pos)`: draw a step count uniformly from
`[0, max_step]`, take that many random allowed steps (stopping early when
boxed in), then place a wall in a random direction that is still free at
the final cell; `none` models the `assert len(allowed_barriers) >= 1`
failing (`AssertionError`). -/
def random_walk (B : Nat) (b : Board) (my adv : Pos) (rng : Nat → Nat) :
    Option (Pos × Nat) :=
  if h : (rwBarriers b (rwFin B b my adv rng).1).length = 0 then none
  else some ((rwFin B b my adv rng).1,
    (rwBarriers b (rwFin B b my adv rng).1).get
      ⟨rng (rwFin B b my adv rng).2 % (rwBarriers b (rwFin B b my adv rng).1).length,
       Nat.mod_lt _ (Nat.pos_of_ne_zero h)⟩)

/-! ### The world state, `step`, and `__init__` -/

/-- The engine-relevant fields of a `World` (agents, timing lists, UI and
the results cache carry no game state and are omitted). -/
structure World where
  board_size : Nat
  chess_board : Board
  max_step : Nat
  turn : Nat
  p0_pos : Pos
  p1_pos : Pos

/-- What the untrusted `cur_player.step(...)` call did: raised some
exception — described by whether `"SystemExit"`/`"KeyboardInterrupt"`
occur in `type(e).__name__` — or returned a `(next_pos, dir)` pair. -/
inductive AgentCall where
  | raises (nameHasSystemExit nameHasKeyboardInterrupt : Bool)
  | returns (pos : Pos) (dir : Int)

/-- Result of one `World.step()` call as observed by its caller. -/
inductive StepResult where
  | sysExit
  | raised (exn : String)
  | ok (w : World) (res : Bool × Nat × Nat)

/-- Outcome of the `try:` block of `World.step`: either an exception was
caught (recording the two name tests and whether the local `time_taken`
had already been assigned) or a fully validated move came through. -/
inductive TryOutcome where
  | caught (sysE kbd timeBound : Bool)
  | valid (pos : Pos) (dir : Nat)

/-- The `try:` body of `World.step`: run the agent, then the three
validation checks, each raising `ValueError` (whose name contains neither
`"SystemExit"` nor `"KeyboardInterrupt"`); `time_taken` is assigned right
after the agent call returns. -/
def tryBlock (w : World) (cur adv : Pos) (call : AgentCall) : TryOutcome :=
  match call with
  | .raises se kb => .caught se kb false
  | .returns pos dir =>
    if ¬ check_boundary w.board_size pos then .caught false false true
    else if ¬ (0 ≤ dir ∧ dir ≤ 3) then .caught false false true
    else if ¬ check_valid_step w.chess_board w.max_step adv cur pos dir.toNat then
      .caught false false true
    else .valid pos dir.toNat

/-- `World.get_current_player()`: the mover's and the adversary's
positions for the current turn (the agent object itself carries no game
state and is omitted). -/
def get_current_player (w : World) : Pos × Pos :=
  if w.turn = 0 then (w.p0_pos, w.p1_pos) else (w.p1_pos, w.p0_pos)

/-- The position fields after the mover's position is updated
(`self.p0_pos = next_pos` / `self.p1_pos = next_pos`). -/
def movedWorld (w : World) (npos : Pos) : World :=
  if w.turn = 0 then { w with p0_pos := npos } else { w with p1_pos := npos }

/-- The tail of `World.step` after a move (agent-supplied or fallback) has
been fixed: update the mover's position, set the barrier, flip the turn
and recompute the endgame triple. -/
def applyMove (w : World) (npos : Pos) (ndir : Nat) : StepResult :=
  match set_barrier w.board_size w.chess_board npos.1 npos.2 ndir with
  | none => .raised "IndexError"
  | some b2 =>
    .ok { movedWorld w npos with chess_board := b2, turn := 1 - w.turn }
      (check_endgame w.board_size b2 (movedWorld w npos).p0_pos
        (movedWorld w npos).p1_pos)

/-- `World.step()`.  On a caught exception: re-raise as process exit for
`KeyboardInterrupt` (any agent) or `SystemExit` (human agent); otherwise
run the fallback `random_walk`.  The logging statement after the
`try/except` interpolates the local `time_taken`, which is unbound when
the agent call itself raised — Python then raises `UnboundLocalError`
to the caller. -/
def World.step (w : World) (call : AgentCall) (isHuman : Bool)
    (rng : Nat → Nat) : StepResult :=
  match tryBlock w (get_current_player w).1 (get_current_player w).2 call with
  | .valid npos ndir => applyMove w npos ndir
  | .caught se kb timeBound =>
    if (se && isHuman) || kb then .sysExit
    else
      match random_walk w.max_step w.chess_board (get_current_player w).1
        (get_current_player w).2 rng with
      | none => .raised "AssertionError"
      | some (npos, ndir) =>
        if timeBound then applyMove w npos ndir
        else .raised "UnboundLocalError"

/-- The rejection loop drawing one random barrier location: redraw
`(pos, dir)` while `chess_board[r, c, dir]` is already set.  Each attempt
consumes three draws (`randint(0, N, size=2)` then `randint(0, 4)`).
`none` models the loop not terminating within `fuel` attempts. -/
def drawBarrier (N : Nat) (b : Board) (rng : Nat → Nat) :
    Nat → Nat → Option (Pos × Nat × Nat)
  | _, 0 => none
  | i, fuel + 1 =>
    let r : Int := (rng i % N : Nat)
    let c : Int := (rng (i + 1) % N : Nat)
    let d := rng (i + 2) % 4
    if b r c d then drawBarrier N b rng (i + 3) fuel
    else some ((r, c), d, i + 3)

/-- The `for _ in range(num_barriers)` seeding loop of `__init__`: draw a
free slot, set the barrier there and the centrally mirrored barrier
(`anti_pos = board_size - 1 - pos`, `anti_dir = opposites[dir]`). -/
def seedBarriers (N : Nat) (rng : Nat → Nat) (fuel : Nat) :
    Nat → Board → Nat → Option (Board × Nat)
  | 0, b, i => some (b, i)
  | k + 1, b, i =>
    match drawBarrier N b rng i fuel with
    | none => none
    | some (p, d, i') =>
      match set_barrier N b p.1 p.2 d with
      | none => none
      | some b1 =>
        match set_barrier N b1 ((N : Int) - 1 - p.1) ((N : Int) - 1 - p.2) (opposites d) with
        | none => none
        | some b2 => seedBarriers N rng fuel k b2 i'

/-- One draw of the random symmetric start positions (lines 152-153 and
159-160 of the source): `p0 = randint(0, N, size=2)`,
`p1 = board_size - 1 - p0`. -/
def rollPositions (N : Nat) (rng : Nat → Nat) (i : Nat) : Pos × Pos :=
  let p0 : Pos := ((rng i % N : Nat), (rng (i + 1) % N : Nat))
  (p0, ((N : Int) - 1 - p0.1, (N : Int) - 1 - p0.2))

/-- The start-position re-roll loop of `__init__`: draw, and re-roll while
the two positions coincide or `check_endgame` already reports an ended
game.  `none` models the loop not terminating within `fuel` draws. -/
def rollLoop (N : Nat) (b : Board) (rng : Nat → Nat) :
    Nat → Nat → Option (Pos × Pos)
  | _, 0 => none
  | i, fuel + 1 =>
    if (rollPositions N rng i).1 = (rollPositions N rng i).2 ∨
        (check_endgame N b (rollPositions N rng i).1 (rollPositions N rng i).2).1 = true then
      rollLoop N b rng (i + 2) fuel
    else some (rollPositions N rng i)

/-- `World.__init__` with a given `board_size = N` (the agent registry,
autoplay flag, timing lists and UI setup carry no game state and are
omitted): borders, `max_step = (board_size + 1) // 2`,
`num_barriers = board_size // 2 - 1` random symmetric barrier pairs, then
re-rolled symmetric start positions, with `turn = 0`. -/
def worldInit (N : Nat) (rng : Nat → Nat) (fuelB fuelR : Nat) : Option World :=
  match seedBarriers N rng fuelB (N / 2 - 1) (initBoard N) 0 with
  | none => none
  | some (b, i) =>
    match rollLoop N b rng i fuelR with
    | none => none
    | some (p0, p1) =>
      some { board_size := N, chess_board := b, max_step := (N + 1) / 2,
             turn := 0, p0_pos := p0, p1_pos := p1 }

set_option maxRecDepth 10000

/-! ### Concrete instances used by counterexamples and witnesses -/

/-- A random stream for which `worldInit 4` succeeds: the single interior
barrier pair is drawn at `(1, 1)` facing up, and the start positions come
out as `(0, 0)` and `(3, 3)`. -/
def c2rng : Nat → Nat := fun n => if n = 0 then 1 else if n = 1 then 1 else 0

/-- A 4×4 world with no interior walls, players at opposite corners. -/
def w4c1 : World :=
  { board_size := 4, chess_board := initBoard 4, max_step := 2,
    turn := 0, p0_pos := (0, 0), p1_pos := (3, 3) }

/-- A 3×3 board whose walls split the cells into three regions: the corner
`{(0,0)}`, the five cells left of the column cut, and the three cells
right of it. -/
def cb6 : Board :=
  (((((set_barrier 3 (initBoard 3) 0 0 1).bind fun b => set_barrier 3 b 0 0 2).bind
    fun b => set_barrier 3 b 0 1 1).bind fun b => set_barrier 3 b 1 1 1).bind
    fun b => set_barrier 3 b 2 1 1).getD (initBoard 3)

/-! ### Specification-side definitions for the BFS claims -/

/-- Neighbour of `p` in direction `d`. -/
def nbr (p : Pos) (d : Nat) : Pos := (p.1 + (moves d).1, p.2 + (moves d).2)

/-- `ReachLe b adv p n q`: there is a path of at most `n` grid steps from
`p` to `q` that never crosses an edge whose wall bit is set at the cell it
leaves and never steps onto the opponent's cell `adv`. -/
inductive ReachLe (b : Board) (adv p : Pos) : Nat → Pos → Prop where
  | refl (n : Nat) : ReachLe b adv p n p
  | tail {n : Nat} {q : Pos} (d : Nat) (hd : d < 4)
      (hw : b q.1 q.2 d = false) (hadv : nbr q d ≠ adv)
      (h : ReachLe b adv p n q) : ReachLe b adv p (n + 1) (nbr q d)

/-- The invariant of the BFS loop of `check_valid_step`, with a ghost
depth assignment `dep` for the visited cells: visited cells are distinct,
reachable within their recorded depth (which is at most `B`), and are not
the destination; queued entries are visited cells carrying their depth;
queued positions are distinct; a visited cell no longer in the queue has
all its open non-opponent neighbours visited at depth at most one more;
queued depths are non-decreasing, within a window of one, and every
visited depth is at most one more than any queued depth. -/
def BfsInv (b : Board) (adv startP endP : Pos) (B : Nat)
    (q : List (Pos × Nat)) (vis : List Pos) (dep : Pos → Nat) : Prop :=
  vis.Nodup ∧
  startP ∈ vis ∧ dep startP = 0 ∧
  (∀ p ∈ vis, ReachLe b adv startP (dep p) p ∧ dep p ≤ B ∧ p ≠ endP) ∧
  (∀ x ∈ q, x.1 ∈ vis ∧ dep x.1 = x.2) ∧
  (q.map Prod.fst).Nodup ∧
  (∀ p ∈ vis, (∀ e ∈ q, e.1 ≠ p) → ∀ d, d < 4 → b p.1 p.2 d = false →
      nbr p d ≠ adv → nbr p d ∈ vis ∧ dep (nbr p d) ≤ dep p + 1) ∧
  q.Pairwise (fun x y => x.2 ≤ y.2) ∧
  (∀ x ∈ q, ∀ y ∈ q, x.2 ≤ y.2 + 1) ∧
  (∀ x ∈ q, ∀ p ∈ vis, dep p ≤ x.2 + 1)

/-! ### Specification-side definitions for the union-find claims -/

/-- `k`-fold parent iteration in a parent map. -/
def iterF (f : FMap) (k : Nat) (p : Pos) : Pos := (fapp f)^[k] p

/-- `p` is its own parent (a union-find root). -/
def isRootF (f : FMap) (p : Pos) : Prop := fapp f p = p

/-- `r` is the root of `p`'s parent chain. -/
def RootRel (f : FMap) (p r : Pos) : Prop :=
  isRootF f r ∧ ∃ k, iterF f k p = r

/-- Two cells have the same root. -/
def rootEqF (f : FMap) (p q : Pos) : Prop :=
  ∃ r, RootRel f p r ∧ RootRel f q r

/-- `g` refines `f` without changing any root: every chain that reaches a
root in `f` reaches the same root in `g`, at most as deep. -/
def RootPres (f g : FMap) : Prop :=
  ∀ q j, isRootF f (iterF f j q) →
    ∃ j' ≤ j, iterF g j' q = iterF f j q ∧ isRootF g (iterF g j' q)

/-- Every chain reaches a root within `B` steps. -/
def DepthLe (f : FMap) (B : Nat) : Prop :=
  ∀ p, ∃ j ≤ B, isRootF f (iterF f j p)

/-- The edges a prefix `l` of the union loop's iteration order contributes:
from cell `e.1`, direction `e.2` (right or down), when no wall blocks it. -/
def baseRel (b : Board) (l : List (Pos × Nat)) (x y : Pos) : Prop :=
  ∃ e ∈ l, b e.1.1 e.1.2 e.2 = false ∧ x = e.1 ∧ y = nbr e.1 e.2

/-- The single edge contributed by one union-loop iteration. -/
def edgeRel (b : Board) (e : Pos × Nat) (x y : Pos) : Prop :=
  b e.1.1 e.1.2 e.2 = false ∧ x = e.1 ∧ y = nbr e.1 e.2

/-- An unwalled adjacency of the grid graph: two in-bounds cells, one the
neighbour of the other, with no wall on either side of the shared edge. -/
def unwalledAdj (N : Nat) (b : Board) (x y : Pos) : Prop :=
  InB N x ∧ InB N y ∧ ∃ d, d < 4 ∧ y = nbr x d ∧
    b x.1 x.2 d = false ∧ b y.1 y.2 (opposites d) = false

/-- Connectivity in the grid graph whose edges are the unwalled
adjacencies. -/
def Conn (N : Nat) (b : Board) (x y : Pos) : Prop :=
  Relation.EqvGen (unwalledAdj N b) x y

/-! ### Basic lemmas: indexing and single wall writes -/

theorem npIndex_inRange (N : Nat) (i : Int) (h1 : 0 ≤ i) (h2 : i < (N : Int)) :
    npIndex N i = some i := by
  unfold npIndex; rw [if_pos ⟨h1, h2⟩]

theorem npIndex_wrap (N : Nat) (i : Int) (h1 : -(N : Int) ≤ i) (h2 : i < 0) :
    npIndex N i = some (i + N) := by
  unfold npIndex
  rw [if_neg (by omega), if_pos ⟨h1, h2⟩]

theorem npIndex_overflow (N : Nat) (i : Int) (h1 : (N : Int) ≤ i) :
    npIndex N i = none := by
  unfold npIndex
  rw [if_neg (by omega), if_neg (by omega)]

theorem setWallBit_same (b : Board) (r c : Int) (d : Nat) :
    setWallBit b r c d r c d = true := by
  unfold setWallBit; simp

theorem setWallBit_other (b : Board) (r c : Int) (d : Nat) (r' c' : Int) (d' : Nat)
    (h : ¬(r' = r ∧ c' = c ∧ d' = d)) :
    setWallBit b r c d r' c' d' = b r' c' d' := by
  unfold setWallBit; rw [if_neg h]

/-! ### Claims C7, C9, C5 -/

/-- C7: for every in-bounds `(r, c, dir)` whose neighbour in direction
`dir` is in bounds, after `set_barrier(r, c, dir)` the wall bit at
`(r, c, dir)` and the mirrored bit at the neighbour in the opposite
direction are both true, and every other wall bit is unchanged. -/
theorem set_barrier_spec (N : Nat) (b : Board) (r c : Int) (d : Nat)
    (hr1 : 0 ≤ r) (hr2 : r < (N : Int)) (hc1 : 0 ≤ c) (hc2 : c < (N : Int))
    (hd : d < 4)
    (hnb : InB N (r + (moves d).1, c + (moves d).2)) :
    ∃ b', set_barrier N b r c d = some b' ∧
      b' r c d = true ∧
      b' (r + (moves d).1) (c + (moves d).2) (opposites d) = true ∧
      ∀ r' c' : Int, ∀ d' : Nat, ¬(r' = r ∧ c' = c ∧ d' = d) →
        ¬(r' = r + (moves d).1 ∧ c' = c + (moves d).2 ∧ d' = opposites d) →
        b' r' c' d' = b r' c' d' := by
  obtain ⟨h1, h2, h3, h4⟩ := hnb
  have hne : ¬(r = r + (moves d).1 ∧ c = c + (moves d).2 ∧ d = opposites d) := by
    rintro ⟨e1, e2, -⟩
    interval_cases d <;> simp [moves] at e1 e2
  refine ⟨setWallBit (setWallBit b r c d) (r + (moves d).1) (c + (moves d).2)
    (opposites d), ?_, ?_, ?_, ?_⟩
  · unfold set_barrier
    rw [npIndex_inRange N r hr1 hr2, npIndex_inRange N c hc1 hc2,
      npIndex_inRange N (r + (moves d).1) h1 h2,
      npIndex_inRange N (c + (moves d).2) h3 h4]
  · rw [setWallBit_other _ _ _ _ _ _ _ hne]
    exact setWallBit_same ..
  · exact setWallBit_same ..
  · intro r' c' d' ha hb
    rw [setWallBit_other _ _ _ _ _ _ _ hb, setWallBit_other _ _ _ _ _ _ _ ha]

/-- Closed instance of C7 at `N = 4`, `(r, c, dir) = (1, 1, 0)`. -/
theorem set_barrier_spec_witness :
    (0 : Int) ≤ 1 ∧ InB 4 ((1 : Int) + (moves 0).1, (1 : Int) + (moves 0).2) ∧
    (∃ b', set_barrier 4 (initBoard 4) 1 1 0 = some b' ∧
      b' 1 1 0 = true ∧
      b' ((1 : Int) + (moves 0).1) ((1 : Int) + (moves 0).2) (opposites 0) = true ∧
      ∀ r' c' : Int, ∀ d' : Nat, ¬(r' = 1 ∧ c' = 1 ∧ d' = 0) →
        ¬(r' = 1 + (moves 0).1 ∧ c' = 1 + (moves 0).2 ∧ d' = opposites 0) →
        b' r' c' d' = initBoard 4 r' c' d') :=
  ⟨by decide,
   by decide,
   set_barrier_spec 4 (initBoard 4) 1 1 0 (by decide) (by decide) (by decide)
     (by decide) (by decide) (by decide)⟩

/-- C9 fails as stated: on the last row with direction down, the mirrored
index is `board_size`, which numpy rejects (`IndexError`) instead of
wrapping, so `set_barrier` does fail there. -/
theorem set_barrier_down_overflow :
    set_barrier 4 (initBoard 4) 3 0 2 = none := by
  unfold set_barrier
  rw [npIndex_inRange 4 3 (by decide) (by decide),
    npIndex_inRange 4 0 (by decide) (by decide),
    show (3 : Int) + (moves 2).1 = 4 by decide,
    show (0 : Int) + (moves 2).2 = 0 by decide,
    npIndex_overflow 4 4 (by decide),
    npIndex_inRange 4 0 (by decide) (by decide)]

/-- C9 (amended): for row 0 with dir up and column 0 with dir left, the
mirrored write wraps via negative indexing to the far edge of the same
column/row; for the last row with dir down and the last column with dir
right, the mirrored index equals `board_size`, which is out of bounds, so
the call fails with `IndexError` (`none`). -/
theorem set_barrier_border_cases (N : Nat) (b : Board) (r c : Int)
    (hr1 : 0 ≤ r) (hr2 : r < (N : Int)) (hc1 : 0 ≤ c) (hc2 : c < (N : Int)) :
    (∃ b', set_barrier N b 0 c 0 = some b' ∧
      b' 0 c 0 = true ∧ b' ((N : Int) - 1) c 2 = true) ∧
    (∃ b', set_barrier N b r 0 3 = some b' ∧
      b' r 0 3 = true ∧ b' r ((N : Int) - 1) 1 = true) ∧
    set_barrier N b ((N : Int) - 1) c 2 = none ∧
    set_barrier N b r ((N : Int) - 1) 1 = none := by
  have hN : (1 : Int) ≤ (N : Int) := by omega
  have e1 : (-1 : Int) + (N : Int) = (N : Int) - 1 := by ring
  refine ⟨⟨setWallBit (setWallBit b 0 c 0) (-1 + (N : Int)) c (opposites 0),
      ?_, ?_, ?_⟩,
    ⟨setWallBit (setWallBit b r 0 3) r (-1 + (N : Int)) (opposites 3), ?_, ?_, ?_⟩,
    ?_, ?_⟩
  · unfold set_barrier
    rw [npIndex_inRange N 0 le_rfl (by omega), npIndex_inRange N c hc1 hc2,
      show (0 : Int) + (moves 0).1 = -1 by decide,
      show c + (moves 0).2 = c by simp [moves],
      npIndex_wrap N (-1) (by omega) (by omega), npIndex_inRange N c hc1 hc2]
  · rw [setWallBit_other]
    · exact setWallBit_same ..
    · rintro ⟨-, -, h⟩
      simp [opposites] at h
  · rw [← e1]
    exact setWallBit_same ..
  · unfold set_barrier
    rw [npIndex_inRange N r hr1 hr2, npIndex_inRange N 0 le_rfl (by omega),
      show r + (moves 3).1 = r by simp [moves],
      show (0 : Int) + (moves 3).2 = -1 by decide,
      npIndex_inRange N r hr1 hr2, npIndex_wrap N (-1) (by omega) (by omega)]
  · rw [setWallBit_other]
    · exact setWallBit_same ..
    · rintro ⟨-, -, h⟩
      simp [opposites] at h
  · rw [← e1]
    exact setWallBit_same ..
  · unfold set_barrier
    rw [npIndex_inRange N ((N : Int) - 1) (by omega) (by omega),
      npIndex_inRange N c hc1 hc2,
      show (N : Int) - 1 + (moves 2).1 = (N : Int) by simp [moves],
      show c + (moves 2).2 = c by simp [moves],
      npIndex_overflow N (N : Int) le_rfl, npIndex_inRange N c hc1 hc2]
  · unfold set_barrier
    rw [npIndex_inRange N r hr1 hr2,
      npIndex_inRange N ((N : Int) - 1) (by omega) (by omega),
      show r + (moves 1).1 = r by simp [moves],
      show (N : Int) - 1 + (moves 1).2 = (N : Int) by simp [moves],
      npIndex_inRange N r hr1 hr2, npIndex_overflow N (N : Int) le_rfl]

/-- Closed instance of the amended C9 at `N = 4`, `r = c = 2`. -/
theorem set_barrier_border_cases_witness :
    ((0 : Int) ≤ 2 ∧ (2 : Int) < ((4 : Nat) : Int)) ∧
    ((∃ b', set_barrier 4 (initBoard 4) 0 2 0 = some b' ∧
      b' 0 2 0 = true ∧ b' (((4 : Nat) : Int) - 1) 2 2 = true) ∧
    (∃ b', set_barrier 4 (initBoard 4) 2 0 3 = some b' ∧
      b' 2 0 3 = true ∧ b' 2 (((4 : Nat) : Int) - 1) 1 = true) ∧
    set_barrier 4 (initBoard 4) (((4 : Nat) : Int) - 1) 2 2 = none ∧
    set_barrier 4 (initBoard 4) 2 (((4 : Nat) : Int) - 1) 1 = none) :=
  ⟨⟨by decide, by decide⟩,
   set_barrier_border_cases 4 (initBoard 4) 2 2 (by decide) (by decide)
     (by decide) (by decide)⟩

/-- C5: if the destination cell already has a wall bit set in the requested
direction, `check_valid_step` returns false, regardless of reachability
and even when the destination equals the start. -/
theorem check_valid_step_walled (b : Board) (B : Nat) (adv start_pos end_pos : Pos)
    (bd : Nat) (h : b end_pos.1 end_pos.2 bd = true) :
    check_valid_step b B adv start_pos end_pos bd = false := by
  unfold check_valid_step
  rw [if_pos h]

/-- Closed instance of C5 with destination equal to the start (the border
wall at `(0, 0)` facing up). -/
theorem check_valid_step_walled_witness :
    initBoard 4 (0, 0).1 (0, 0).2 0 = true ∧
    check_valid_step (initBoard 4) 2 (3, 3) (0, 0) (0, 0) 0 = false :=
  ⟨by decide, check_valid_step_walled (initBoard 4) 2 (3, 3) (0, 0) (0, 0) 0 (by decide)⟩

/-! ### Claims C2, C10, C1 -/

theorem movedWorld_max_step (w : World) (npos : Pos) :
    (movedWorld w npos).max_step = w.max_step := by
  unfold movedWorld
  split <;> rfl

theorem applyMove_fields (w : World) (npos : Pos) (ndir : Nat) (w' : World)
    (res : Bool × Nat × Nat) (h : applyMove w npos ndir = .ok w' res) :
    w'.max_step = w.max_step := by
  unfold applyMove at h
  split at h
  · cases h
  · cases h
    exact movedWorld_max_step w npos

theorem step_ok_max_step (v : World) (call : AgentCall) (ih : Bool)
    (rng' : Nat → Nat) (v' : World) (res : Bool × Nat × Nat)
    (h : World.step v call ih rng' = .ok v' res) : v'.max_step = v.max_step := by
  unfold World.step at h
  split at h
  · exact applyMove_fields _ _ _ _ _ h
  · split at h
    · cases h
    · split at h
      · cases h
      · split at h
        · exact applyMove_fields _ _ _ _ _ h
        · cases h

/-- C2 fails as stated: the source computes `(board_size + 1) // 2`, the
floor, not the ceiling, of `(N + 1) / 2`; at `N = 4` the move budget is 2,
not `⌈5/2⌉ = 3`. -/
theorem max_step_counterexample :
    (worldInit 4 c2rng 5 5).map World.max_step = some 2 ∧ (2 : Nat) ≠ (4 + 2) / 2 :=
  ⟨by decide, by decide⟩

/-- C2 (amended): for every board size `N`, the move budget computed at
construction equals `⌊(N + 1) / 2⌋` (for `N = 4` this is 2), and no step
ever changes it. -/
theorem max_step_spec (N : Nat) (rng : Nat → Nat) (fB fR : Nat) (w : World)
    (h : worldInit N rng fB fR = some w) :
    w.max_step = (N + 1) / 2 ∧
    ∀ (v : World) (call : AgentCall) (ih : Bool) (rng' : Nat → Nat)
      (v' : World) (res : Bool × Nat × Nat),
      World.step v call ih rng' = .ok v' res → v'.max_step = v.max_step := by
  refine ⟨?_, fun v call ih rng' v' res hs => step_ok_max_step v call ih rng' v' res hs⟩
  unfold worldInit at h
  split at h
  · cases h
  · split at h
    · cases h
    · cases h
      rfl

/-- Closed instance of the amended C2 at `N = 4` with a concrete stream. -/
theorem max_step_spec_witness :
    worldInit 4 c2rng 5 5 = some ((worldInit 4 c2rng 5 5).getD w4c1) ∧
    ((worldInit 4 c2rng 5 5).getD w4c1).max_step = (4 + 1) / 2 ∧
    ∀ (v : World) (call : AgentCall) (ih : Bool) (rng' : Nat → Nat)
      (v' : World) (res : Bool × Nat × Nat),
      World.step v call ih rng' = .ok v' res → v'.max_step = v.max_step :=
  ⟨rfl, max_step_spec 4 c2rng 5 5 ((worldInit 4 c2rng 5 5).getD w4c1) rfl⟩

theorem rollLoop_spec (N : Nat) (b : Board) (rng : Nat → Nat) :
    ∀ fuel i pp, rollLoop N b rng i fuel = some pp →
      pp.2 = ((N : Int) - 1 - pp.1.1, (N : Int) - 1 - pp.1.2) ∧
      pp.1 ≠ pp.2 ∧ (check_endgame N b pp.1 pp.2).1 = false := by
  intro fuel
  induction fuel with
  | zero => intro i pp h; simp [rollLoop] at h
  | succ n IH =>
    intro i pp h
    unfold rollLoop at h
    split at h
    · exact IH _ _ h
    · next hc =>
      cases h
      push_neg at hc
      exact ⟨rfl, hc.1, by simpa using hc.2⟩

/-- C10: after a successful construction the two start positions are
centrally symmetric (`p1 = (N-1, N-1) - p0` componentwise) — as they are
after every single re-roll draw — and by the re-roll loop's exit
condition they are distinct and `check_endgame` reports `ended = false`. -/
theorem init_positions_spec (N : Nat) (rng : Nat → Nat) (fB fR : Nat) (w : World)
    (h : worldInit N rng fB fR = some w) :
    w.p1_pos = ((N : Int) - 1 - w.p0_pos.1, (N : Int) - 1 - w.p0_pos.2) ∧
    (∀ i, (rollPositions N rng i).2 =
      ((N : Int) - 1 - (rollPositions N rng i).1.1,
       (N : Int) - 1 - (rollPositions N rng i).1.2)) ∧
    w.p0_pos ≠ w.p1_pos ∧
    (check_endgame N w.chess_board w.p0_pos w.p1_pos).1 = false := by
  unfold worldInit at h
  split at h
  · cases h
  · next hseed =>
    split at h
    · cases h
    · next pp hroll =>
      obtain ⟨hsym, hne, hend⟩ := rollLoop_spec N _ rng _ _ _ hroll
      cases h
      exact ⟨hsym, fun i => rfl, hne, hend⟩

/-- Closed instance of C10 at `N = 4` with a concrete stream. -/
theorem init_positions_spec_witness :
    worldInit 4 c2rng 5 5 = some ((worldInit 4 c2rng 5 5).getD w4c1) ∧
    ((worldInit 4 c2rng 5 5).getD w4c1).p1_pos =
      (((4 : Nat) : Int) - 1 - ((worldInit 4 c2rng 5 5).getD w4c1).p0_pos.1,
       ((4 : Nat) : Int) - 1 - ((worldInit 4 c2rng 5 5).getD w4c1).p0_pos.2) ∧
    (∀ i, (rollPositions 4 c2rng i).2 =
      (((4 : Nat) : Int) - 1 - (rollPositions 4 c2rng i).1.1,
       ((4 : Nat) : Int) - 1 - (rollPositions 4 c2rng i).1.2)) ∧
    ((worldInit 4 c2rng 5 5).getD w4c1).p0_pos ≠
      ((worldInit 4 c2rng 5 5).getD w4c1).p1_pos ∧
    (check_endgame 4 ((worldInit 4 c2rng 5 5).getD w4c1).chess_board
      ((worldInit 4 c2rng 5 5).getD w4c1).p0_pos
      ((worldInit 4 c2rng 5 5).getD w4c1).p1_pos).1 = false := by
  have hmain := init_positions_spec 4 c2rng 5 5 ((worldInit 4 c2rng 5 5).getD w4c1) rfl
  exact ⟨rfl, hmain.1, hmain.2.1, hmain.2.2.1, hmain.2.2.2⟩

/-- C1 is contradicted by the code: when the agent's `step` call itself
raises a recoverable exception, the local `time_taken` is never assigned,
so after the `except:` block has computed the fallback random-walk move
the logging statement raises `UnboundLocalError`, which propagates to the
caller of `World.step` — the turn does not complete.  (A malformed or
invalid *returned* move, by contrast, does complete with the fallback
move, since `time_taken` was assigned before validation.) -/
theorem step_agent_raise_crashes :
    World.step w4c1 (.raises false false) false (fun _ => 0) =
      .raised "UnboundLocalError" ∧
    (∃ w' res, World.step w4c1 (.returns (9, 9) 0) false (fun _ => 0) = .ok w' res) :=
  ⟨rfl, ⟨_, _, rfl⟩⟩

/-! ### BFS correctness for `check_valid_step` (C4) -/

theorem ReachLe.mono_succ {b : Board} {adv p : Pos} {n : Nat} {q : Pos}
    (h : ReachLe b adv p n q) : ReachLe b adv p (n + 1) q := by
  induction h with
  | refl n => exact .refl (n + 1)
  | tail d hd hw hadv _ IH => exact .tail d hd hw hadv IH

theorem ReachLe.widen {b : Board} {adv p : Pos} {n m : Nat} {q : Pos}
    (h : ReachLe b adv p n q) (hnm : n ≤ m) : ReachLe b adv p m q := by
  induction hnm with
  | refl => exact h
  | step _ IH => exact IH.mono_succ

theorem ReachLe.coord {b : Board} {adv p : Pos} {n : Nat} {q : Pos}
    (h : ReachLe b adv p n q) :
    p.1 - n ≤ q.1 ∧ q.1 ≤ p.1 + n ∧ p.2 - n ≤ q.2 ∧ q.2 ≤ p.2 + n := by
  induction h with
  | refl n => omega
  | tail d hd _ _ _ IH =>
    interval_cases d <;> simp only [nbr, moves] <;> omega

/-- The Chebyshev ball of radius `B` around `s`, as a finset of positions. -/
theorem vis_length_le (B : Nat) (startP : Pos) (vis : List Pos)
    (hnd : vis.Nodup)
    (hball : ∀ p ∈ vis, startP.1 - B ≤ p.1 ∧ p.1 ≤ startP.1 + B ∧
      startP.2 - B ≤ p.2 ∧ p.2 ≤ startP.2 + B) :
    vis.length ≤ (2 * B + 1) ^ 2 := by
  classical
  have hsub : vis.toFinset ⊆
      (Finset.Icc (startP.1 - B) (startP.1 + B)) ×ˢ
      (Finset.Icc (startP.2 - B) (startP.2 + B)) := by
    intro p hp
    rw [List.mem_toFinset] at hp
    obtain ⟨h1, h2, h3, h4⟩ := hball p hp
    rw [Finset.mem_product, Finset.mem_Icc, Finset.mem_Icc]
    exact ⟨⟨h1, h2⟩, ⟨h3, h4⟩⟩
  have hcard := Finset.card_le_card hsub
  rw [List.toFinset_card_of_nodup hnd] at hcard
  rw [Finset.card_product, Int.card_Icc, Int.card_Icc] at hcard
  have e : (startP.1 + B + 1 - (startP.1 - B)).toNat = 2 * B + 1 := by omega
  have e2 : (startP.2 + B + 1 - (startP.2 - B)).toNat = 2 * B + 1 := by omega
  rw [e, e2] at hcard
  calc vis.length ≤ (2 * B + 1) * (2 * B + 1) := hcard
    _ = (2 * B + 1) ^ 2 := by ring

theorem processDirs_cons (b : Board) (adv endP cur : Pos) (curStep : Nat)
    (d : Nat) (ds : List Nat) (visited : List Pos) :
    processDirs b adv endP cur curStep (d :: ds) visited =
      if b cur.1 cur.2 d then processDirs b adv endP cur curStep ds visited
      else if nbr cur d = adv ∨ nbr cur d ∈ visited then
        processDirs b adv endP cur curStep ds visited
      else if nbr cur d = endP then ([], visited, true)
      else ((nbr cur d, curStep + 1) ::
              (processDirs b adv endP cur curStep ds (nbr cur d :: visited)).1,
            (processDirs b adv endP cur curStep ds (nbr cur d :: visited)).2.1,
            (processDirs b adv endP cur curStep ds (nbr cur d :: visited)).2.2) := rfl

theorem bfsLoop_cons (b : Board) (B : Nat) (adv endP : Pos) (fuel : Nat)
    (cur : Pos) (d : Nat) (rest : List (Pos × Nat)) (visited : List Pos) :
    bfsLoop b B adv endP (fuel + 1) ((cur, d) :: rest) visited =
      if d = B then false
      else if (processDirs b adv endP cur d [0, 1, 2, 3] visited).2.2 then true
      else bfsLoop b B adv endP fuel
        (rest ++ (processDirs b adv endP cur d [0, 1, 2, 3] visited).1)
        (processDirs b adv endP cur d [0, 1, 2, 3] visited).2.1 := rfl

theorem processDirs_spec (b : Board) (adv endP cur : Pos) (d : Nat) :
    ∀ (ds : List Nat) (vis : List Pos), (∀ dd ∈ ds, dd < 4) →
      vis.Nodup → endP ∉ vis →
      (((processDirs b adv endP cur d ds vis).2.2 = true →
        ∃ dd, dd ∈ ds ∧ dd < 4 ∧ b cur.1 cur.2 dd = false ∧
          nbr cur dd ≠ adv ∧ nbr cur dd = endP) ∧
      ((processDirs b adv endP cur d ds vis).2.2 = false →
        (processDirs b adv endP cur d ds vis).2.1.Nodup ∧
        endP ∉ (processDirs b adv endP cur d ds vis).2.1 ∧
        (∀ x ∈ vis, x ∈ (processDirs b adv endP cur d ds vis).2.1) ∧
        (∀ x ∈ (processDirs b adv endP cur d ds vis).2.1, x ∈ vis ∨
          (x ∉ vis ∧ ∃ dd, dd ∈ ds ∧ dd < 4 ∧ x = nbr cur dd ∧
            b cur.1 cur.2 dd = false ∧ x ≠ adv)) ∧
        (∀ e ∈ (processDirs b adv endP cur d ds vis).1,
          e.2 = d + 1 ∧ e.1 ∈ (processDirs b adv endP cur d ds vis).2.1 ∧
            e.1 ∉ vis) ∧
        ((processDirs b adv endP cur d ds vis).1.map Prod.fst).Nodup ∧
        (∀ x ∈ (processDirs b adv endP cur d ds vis).2.1, x ∉ vis →
          ∃ e ∈ (processDirs b adv endP cur d ds vis).1, e.1 = x) ∧
        (∀ dd ∈ ds, b cur.1 cur.2 dd = false → nbr cur dd ≠ adv →
          nbr cur dd ∈ (processDirs b adv endP cur d ds vis).2.1))) := by
  intro ds
  induction ds with
  | nil =>
    intro vis _ hnd hend
    refine ⟨fun h => by simp [processDirs] at h, fun _ => ?_⟩
    refine ⟨hnd, hend, fun x hx => hx, fun x hx => Or.inl hx, ?_, ?_, ?_, ?_⟩
    · intro e he; simp [processDirs] at he
    · simp [processDirs]
    · intro x hx hx'; exact absurd hx hx'
    · intro dd hdd; simp at hdd
  | cons d0 ds IH =>
    intro vis hds hnd hend
    rw [processDirs_cons]
    by_cases hw : b cur.1 cur.2 d0
    · rw [if_pos hw]
      obtain ⟨IH1, IH2⟩ := IH vis (fun dd h => hds dd (List.mem_cons_of_mem d0 h)) hnd hend
      refine ⟨?_, ?_⟩
      · intro h
        obtain ⟨dd, h1, h2, h3, h4, h5⟩ := IH1 h
        exact ⟨dd, List.mem_cons_of_mem d0 h1, h2, h3, h4, h5⟩
      · intro h
        obtain ⟨a1, a2, a3, a4, a5, a6, a7, a8⟩ := IH2 h
        refine ⟨a1, a2, a3, ?_, a5, a6, a7, ?_⟩
        · intro x hx
          rcases a4 x hx with h' | ⟨hnv, dd, h1, h2, h3, h4, h5⟩
          · exact Or.inl h'
          · exact Or.inr ⟨hnv, dd, List.mem_cons_of_mem d0 h1, h2, h3, h4, h5⟩
        · intro dd hdd hop hna
          rcases List.mem_cons.mp hdd with rfl | hdd'
          · exact absurd hw (by simp [hop])
          · exact a8 dd hdd' hop hna
    · rw [if_neg hw]
      by_cases hskip : nbr cur d0 = adv ∨ nbr cur d0 ∈ vis
      · rw [if_pos hskip]
        obtain ⟨IH1, IH2⟩ := IH vis (fun dd h => hds dd (List.mem_cons_of_mem d0 h)) hnd hend
        refine ⟨?_, ?_⟩
        · intro h
          obtain ⟨dd, h1, h2, h3, h4, h5⟩ := IH1 h
          exact ⟨dd, List.mem_cons_of_mem d0 h1, h2, h3, h4, h5⟩
        · intro h
          obtain ⟨a1, a2, a3, a4, a5, a6, a7, a8⟩ := IH2 h
          refine ⟨a1, a2, a3, ?_, a5, a6, a7, ?_⟩
          · intro x hx
            rcases a4 x hx with h' | ⟨hnv, dd, h1, h2, h3, h4, h5⟩
            · exact Or.inl h'
            · exact Or.inr ⟨hnv, dd, List.mem_cons_of_mem d0 h1, h2, h3, h4, h5⟩
          · intro dd hdd hop hna
            rcases List.mem_cons.mp hdd with rfl | hdd'
            · rcases hskip with h' | h'
              · exact absurd h' hna
              · exact a3 _ h'
            · exact a8 dd hdd' hop hna
      · rw [if_neg hskip]
        push_neg at hskip
        obtain ⟨hnadv, hnvis⟩ := hskip
        by_cases hfound : nbr cur d0 = endP
        · rw [if_pos hfound]
          refine ⟨fun _ => ⟨d0, List.mem_cons_self d0 ds, hds d0 (List.mem_cons_self d0 ds),
            by simpa using hw, hnadv, hfound⟩, fun h => by simp at h⟩
        · rw [if_neg hfound]
          have hnd' : (nbr cur d0 :: vis).Nodup := List.nodup_cons.mpr ⟨hnvis, hnd⟩
          have hend' : endP ∉ nbr cur d0 :: vis := by
            intro h
            rcases List.mem_cons.mp h with h' | h'
            · exact hfound h'.symm
            · exact hend h'
          obtain ⟨IH1, IH2⟩ := IH (nbr cur d0 :: vis)
            (fun dd h => hds dd (List.mem_cons_of_mem d0 h)) hnd' hend'
          refine ⟨?_, ?_⟩
          · intro h
            obtain ⟨dd, h1, h2, h3, h4, h5⟩ := IH1 h
            exact ⟨dd, List.mem_cons_of_mem d0 h1, h2, h3, h4, h5⟩
          · intro h
            obtain ⟨a1, a2, a3, a4, a5, a6, a7, a8⟩ := IH2 h
            have hnpmem : nbr cur d0 ∈
                (processDirs b adv endP cur d ds (nbr cur d0 :: vis)).2.1 :=
              a3 _ (List.mem_cons_self _ _)
            refine ⟨a1, a2, ?_, ?_, ?_, ?_, ?_, ?_⟩
            · intro x hx
              exact a3 x (List.mem_cons_of_mem _ hx)
            · intro x hx
              rcases a4 x hx with h' | ⟨hnv, dd, h1, h2, h3, h4, h5⟩
              · rcases List.mem_cons.mp h' with rfl | h''
                · exact Or.inr ⟨hnvis, d0, List.mem_cons_self d0 ds,
                    hds d0 (List.mem_cons_self d0 ds), rfl, by simpa using hw, hnadv⟩
                · exact Or.inl h''
              · refine Or.inr ⟨fun hc => hnv (List.mem_cons_of_mem _ hc),
                  dd, List.mem_cons_of_mem d0 h1, h2, h3, h4, h5⟩
            · intro e he
              rcases List.mem_cons.mp he with rfl | he'
              · exact ⟨rfl, hnpmem, hnvis⟩
              · obtain ⟨e1, e2, e3⟩ := a5 e he'
                exact ⟨e1, e2, fun hc => e3 (List.mem_cons_of_mem _ hc)⟩
            · rw [List.map_cons]
              refine List.nodup_cons.mpr ⟨?_, a6⟩
              intro hc
              rw [List.mem_map] at hc
              obtain ⟨e, he, hee⟩ := hc
              exact (a5 e he).2.2 (hee ▸ List.mem_cons_self _ _)
            · intro x hx hxv
              by_cases hxnp : x = nbr cur d0
              · exact ⟨(nbr cur d0, d + 1), List.mem_cons_self _ _, hxnp.symm⟩
              · have : x ∉ nbr cur d0 :: vis := by
                  intro hc
                  rcases List.mem_cons.mp hc with h' | h'
                  · exact hxnp h'
                  · exact hxv h'
                obtain ⟨e, he, hee⟩ := a7 x hx this
                exact ⟨e, List.mem_cons_of_mem _ he, hee⟩
            · intro dd hdd hop hna
              rcases List.mem_cons.mp hdd with rfl | hdd'
              · exact hnpmem
              · exact a8 dd hdd' hop hna

theorem bfsLoop_nil (b : Board) (B : Nat) (adv endP : Pos) (fuel : Nat)
    (vis : List Pos) : bfsLoop b B adv endP fuel [] vis = false := by
  cases fuel <;> rfl

theorem bfsLoop_zero (b : Board) (B : Nat) (adv endP : Pos)
    (x : Pos × Nat) (rest : List (Pos × Nat)) (vis : List Pos) :
    bfsLoop b B adv endP 0 (x :: rest) vis = false := rfl

theorem mem_dirs (dd : Nat) (h : dd < 4) : dd ∈ [0, 1, 2, 3] := by
  interval_cases dd <;> simp

theorem pairwise_snd_const {α : Type} {k : Nat} :
    ∀ l : List (α × Nat), (∀ e ∈ l, e.2 = k) →
      l.Pairwise (fun x y => x.2 ≤ y.2) := by
  intro l
  induction l with
  | nil => intro _; exact List.Pairwise.nil
  | cons x xs IH =>
    intro h
    refine List.Pairwise.cons ?_ (IH fun e he => h e (List.mem_cons_of_mem x he))
    intro y hy
    rw [h x (List.mem_cons_self x xs), h y (List.mem_cons_of_mem x hy)]

theorem nodup_subset_length {α : Type} [DecidableEq α] (l l' : List α)
    (h : l.Nodup) (hs : ∀ x ∈ l, x ∈ l') : l.length ≤ l'.length := by
  calc l.length = l.toFinset.card := (List.toFinset_card_of_nodup h).symm
    _ ≤ l'.toFinset.card :=
      Finset.card_le_card fun x hx =>
        List.mem_toFinset.mpr (hs x (List.mem_toFinset.mp hx))
    _ ≤ l'.length := l'.toFinset_card_le

theorem bfs_empty_no_reach (b : Board) (adv startP endP : Pos) (B : Nat)
    (vis : List Pos) (dep : Pos → Nat)
    (hinv : BfsInv b adv startP endP B [] vis dep) :
    ¬ ReachLe b adv startP B endP := by
  obtain ⟨hnd, hstart, hdep0, hvis, hq, hqnd, hclo, hsort, hwin, hfront⟩ := hinv
  have hall : ∀ (n : Nat) (x : Pos), ReachLe b adv startP n x → x ∈ vis := by
    intro n x h
    induction h with
    | refl n => exact hstart
    | @tail m qq dd hd hw hadv h IH =>
      exact (hclo qq IH (fun e he => absurd he (List.not_mem_nil e)) dd hd hw hadv).1
  intro hreach
  exact (hvis endP (hall B endP hreach)).2.2 rfl

theorem bfs_depthB_no_reach (b : Board) (adv startP endP : Pos) (B : Nat)
    (cur : Pos) (rest : List (Pos × Nat)) (vis : List Pos) (dep : Pos → Nat)
    (hne : startP ≠ endP)
    (hinv : BfsInv b adv startP endP B ((cur, B) :: rest) vis dep) :
    ¬ ReachLe b adv startP B endP := by
  obtain ⟨hnd, hstart, hdep0, hvis, hq, hqnd, hclo, hsort, hwin, hfront⟩ := hinv
  have hallB : ∀ e ∈ (cur, B) :: rest, e.2 = B := by
    intro e he
    rcases List.mem_cons.mp he with rfl | he'
    · rfl
    · have h1 : B ≤ e.2 := (List.pairwise_cons.mp hsort).1 e he'
      have h2 : e.2 ≤ B := by
        obtain ⟨hm, hd⟩ := hq e (List.mem_cons_of_mem _ he')
        rw [← hd]
        exact (hvis e.1 hm).2.1
      omega
  have hkey : ∀ (n : Nat) (x : Pos), ReachLe b adv startP n x → n < B →
      x ∈ vis ∧ dep x ≤ n := by
    intro n x h
    induction h with
    | refl n => intro _; exact ⟨hstart, by omega⟩
    | @tail m qq dd hd hw hadv h IH =>
      intro hn
      obtain ⟨hqv, hqd⟩ := IH (by omega)
      have hnq : ∀ e ∈ (cur, B) :: rest, e.1 ≠ qq := by
        intro e he hc
        have := hq e he
        rw [hc] at this
        have := this.2
        have := hallB e he
        omega
      obtain ⟨h1, h2⟩ := hclo qq hqv hnq dd hd hw hadv
      exact ⟨h1, by omega⟩
  intro hreach
  cases hreach with
  | refl => exact hne rfl
  | @tail m qq dd hd hw hadv h =>
    obtain ⟨hqv, hqd⟩ := hkey m qq h (Nat.lt_succ_self m)
    have hnq : ∀ e ∈ (cur, m + 1) :: rest, e.1 ≠ qq := by
      intro e he hc
      have h1 := hq e he
      rw [hc] at h1
      have h2 := hallB e he
      omega
    obtain ⟨h1, h2⟩ := hclo qq hqv hnq dd hd hw hadv
    exact (hvis _ h1).2.2 rfl

theorem bfsLoop_spec (b : Board) (adv startP endP : Pos) (B : Nat)
    (hne : startP ≠ endP) :
    ∀ (fuel : Nat) (q : List (Pos × Nat)) (vis : List Pos) (dep : Pos → Nat),
      BfsInv b adv startP endP B q vis dep →
      1 + q.length + (2 * B + 1) ^ 2 ≤ fuel + vis.length →
      (bfsLoop b B adv endP fuel q vis = true ↔ ReachLe b adv startP B endP) := by
  intro fuel
  induction fuel with
  | zero =>
    intro q vis dep hinv hcap
    rcases q with _ | ⟨⟨cur, d⟩, rest⟩
    · rw [bfsLoop_nil]
      exact iff_of_false (by simp) (bfs_empty_no_reach b adv startP endP B vis dep hinv)
    · exfalso
      have hvlen : vis.length ≤ (2 * B + 1) ^ 2 := by
        apply vis_length_le B startP vis hinv.1
        intro p hp
        have h3 := hinv.2.2.2.1 p hp
        have hco := h3.1.coord
        have hB := h3.2.1
        omega
      simp only [List.length_cons] at hcap
      generalize hg : (2 * B + 1) ^ 2 = K at hcap hvlen
      omega
  | succ fuel IH =>
    intro q vis dep hinv hcap
    rcases q with _ | ⟨⟨cur, d⟩, rest⟩
    · rw [bfsLoop_nil]
      exact iff_of_false (by simp) (bfs_empty_no_reach b adv startP endP B vis dep hinv)
    · obtain ⟨hnd, hstart, hdep0, hvis, hq, hqnd, hclo, hsort, hwin, hfront⟩ := hinv
      by_cases hdB : d = B
      · subst hdB
        rw [bfsLoop_cons, if_pos rfl]
        exact iff_of_false (by simp)
          (bfs_depthB_no_reach b adv startP endP d cur rest vis dep hne
            ⟨hnd, hstart, hdep0, hvis, hq, hqnd, hclo, hsort, hwin, hfront⟩)
      · rw [bfsLoop_cons, if_neg hdB]
        have hcurvis : cur ∈ vis := (hq (cur, d) (List.mem_cons_self _ _)).1
        have hcurdep : dep cur = d := (hq (cur, d) (List.mem_cons_self _ _)).2
        have hdleB : d ≤ B := hcurdep ▸ (hvis cur hcurvis).2.1
        have hdltB : d < B := lt_of_le_of_ne hdleB hdB
        have hendnv : endP ∉ vis := fun hc => (hvis endP hc).2.2 rfl
        have hcurR : ReachLe b adv startP d cur := hcurdep ▸ (hvis cur hcurvis).1
        have hrest_le : ∀ y ∈ rest, d ≤ y.2 := by
          intro y hy
          exact (List.pairwise_cons.mp hsort).1 y hy
        have hwfront : ∀ p ∈ vis, dep p ≤ d + 1 :=
          fun p hp => hfront (cur, d) (List.mem_cons_self _ _) p hp
        obtain ⟨S1, S2⟩ := processDirs_spec b adv endP cur d [0, 1, 2, 3] vis
          (by decide) hnd hendnv
        set P := processDirs b adv endP cur d [0, 1, 2, 3] vis with hP
        by_cases hfound : P.2.2 = true
        · rw [if_pos hfound]
          refine iff_of_true rfl ?_
          obtain ⟨dd, hdd, hdd4, hop, hna, hEnd⟩ := S1 hfound
          have ht := ReachLe.tail dd hdd4 hop hna hcurR
          rw [hEnd] at ht
          exact ht.widen (by omega)
        · rw [if_neg hfound]
          have hfalse : P.2.2 = false := by
            revert hfound
            cases P.2.2 <;> simp
          obtain ⟨a1, a2, a3, a4, a5, a6, a7, a8⟩ := S2 hfalse
          have hrestnd : (rest.map Prod.fst).Nodup := by
            rw [List.map_cons] at hqnd
            exact (List.nodup_cons.mp hqnd).2
          have hcurnotrest : cur ∉ rest.map Prod.fst := by
            rw [List.map_cons] at hqnd
            exact (List.nodup_cons.mp hqnd).1
          refine IH (rest ++ P.1) P.2.1
            (fun x => if x ∈ vis then dep x else d + 1) ⟨a1, a3 startP hstart, ?_,
              ?_, ?_, ?_, ?_, ?_, ?_, ?_⟩ ?_
          · dsimp only
            rw [if_pos hstart]
            exact hdep0
          · intro p hp
            dsimp only
            rcases a4 p hp with h' | ⟨hnv, dd, hdd, hdd4, rfl, hop, hna⟩
            · rw [if_pos h']
              exact hvis p h'
            · rw [if_neg hnv]
              exact ⟨ReachLe.tail dd hdd4 hop hna hcurR, by omega,
                fun hc => a2 (hc ▸ hp)⟩
          · intro x hx
            rcases List.mem_append.mp hx with hx' | hx'
            · obtain ⟨hm, hd'⟩ := hq x (List.mem_cons_of_mem _ hx')
              exact ⟨a3 _ hm, by dsimp only; rw [if_pos hm]; exact hd'⟩
            · obtain ⟨he2, hem, henv⟩ := a5 x hx'
              exact ⟨hem, by dsimp only; rw [if_neg henv]; omega⟩
          · rw [List.map_append, List.nodup_append]
            refine ⟨hrestnd, a6, ?_⟩
            intro x hx1 hx2
            obtain ⟨e, he, rfl⟩ := List.mem_map.mp hx1
            obtain ⟨e', he', hee⟩ := List.mem_map.mp hx2
            have h1 := (hq e (List.mem_cons_of_mem _ he)).1
            have h2 := (a5 e' he').2.2
            rw [hee] at h2
            exact h2 h1
          · intro p hp hnq d4 hd4 hop hna
            dsimp only
            rcases a4 p hp with h' | ⟨hnv, dd, hdd, hdd4, rfl, hop', hna'⟩
            · by_cases hpcur : p = cur
              · subst hpcur
                have hm := a8 d4 (mem_dirs d4 hd4) hop hna
                refine ⟨hm, ?_⟩
                rw [if_pos h']
                by_cases hmv : nbr p d4 ∈ vis
                · rw [if_pos hmv]
                  have := hwfront _ hmv
                  omega
                · rw [if_neg hmv]
                  omega
              · have hnoq : ∀ e ∈ (cur, d) :: rest, e.1 ≠ p := by
                  intro e he
                  rcases List.mem_cons.mp he with rfl | he'
                  · exact fun hc => hpcur hc.symm
                  · exact hnq e (List.mem_append.mpr (Or.inl he'))
                obtain ⟨hm, hdm⟩ := hclo p h' hnoq d4 hd4 hop hna
                refine ⟨a3 _ hm, ?_⟩
                rw [if_pos hm, if_pos h']
                exact hdm
            · exfalso
              obtain ⟨e, he, hee⟩ := a7 _ hp hnv
              exact hnq e (List.mem_append.mpr (Or.inr he)) hee
          · rw [List.pairwise_append]
            refine ⟨(List.pairwise_cons.mp hsort).2,
              pairwise_snd_const _ (fun e he => (a5 e he).1), ?_⟩
            intro x hx y hy
            have h1 : x.2 ≤ d + 1 :=
              hwin x (List.mem_cons_of_mem _ hx) (cur, d) (List.mem_cons_self _ _)
            have h2 := (a5 y hy).1
            omega
          · intro x hx y hy
            rcases List.mem_append.mp hx with hx' | hx' <;>
              rcases List.mem_append.mp hy with hy' | hy'
            · exact hwin x (List.mem_cons_of_mem _ hx') y (List.mem_cons_of_mem _ hy')
            · have h1 : x.2 ≤ d + 1 :=
                hwin x (List.mem_cons_of_mem _ hx') (cur, d) (List.mem_cons_self _ _)
              have h2 := (a5 y hy').1
              omega
            · have h1 := (a5 x hx').1
              have h2 := hrest_le y hy'
              omega
            · have h1 := (a5 x hx').1
              have h2 := (a5 y hy').1
              omega
          · intro x hx p hp
            dsimp only
            rcases a4 p hp with h' | ⟨hnv, dd, hdd, hdd4, rfl, hop', hna'⟩
            · rw [if_pos h']
              rcases List.mem_append.mp hx with hx' | hx'
              · exact hfront x (List.mem_cons_of_mem _ hx') p h'
              · have h1 := (a5 x hx').1
                have h2 := hwfront p h'
                omega
            · rw [if_neg hnv]
              rcases List.mem_append.mp hx with hx' | hx'
              · have := hrest_le x hx'
                omega
              · have := (a5 x hx').1
                omega
          · have hgrow : vis.length + P.1.length ≤ P.2.1.length := by
              have hndapp : (vis ++ P.1.map Prod.fst).Nodup := by
                rw [List.nodup_append]
                refine ⟨hnd, a6, ?_⟩
                intro x hx1 hx2
                obtain ⟨e, he, hee⟩ := List.mem_map.mp hx2
                exact (a5 e he).2.2 (hee ▸ hx1)
              have hsubapp : ∀ x ∈ vis ++ P.1.map Prod.fst, x ∈ P.2.1 := by
                intro x hx
                rcases List.mem_append.mp hx with hx' | hx'
                · exact a3 x hx'
                · obtain ⟨e, he, hee⟩ := List.mem_map.mp hx'
                  exact hee ▸ (a5 e he).2.1
              have := nodup_subset_length _ _ hndapp hsubapp
              rw [List.length_append, List.length_map] at this
              exact this
            simp only [List.length_cons] at hcap
            rw [List.length_append]
            generalize hg : (2 * B + 1) ^ 2 = K at hcap ⊢
            omega

/-- C4: for in-bounds positions on a board with its border walls (the only
boards the engine ever passes), a destination different from the start
with no wall in the requested direction is accepted by `check_valid_step`
exactly when there is a path of at most `max_step` grid steps from start
to destination that never crosses a walled edge and never enters the
opponent's cell.  (On a wall-free board with no interfering opponent this
specialises to: accepted iff the grid distance is at most `max_step`.) -/
theorem check_valid_step_spec (N : Nat) (b : Board) (B : Nat)
    (adv start_pos end_pos : Pos) (bd : Nat)
    (hB : BorderInv N b) (hs : InB N start_pos) (he : InB N end_pos)
    (ha : InB N adv) (hne : start_pos ≠ end_pos)
    (hw : b end_pos.1 end_pos.2 bd = false) :
    (check_valid_step b B adv start_pos end_pos bd = true ↔
      ReachLe b adv start_pos B end_pos) := by
  unfold check_valid_step
  rw [if_neg (by simp [hw]), if_neg hne]
  apply bfsLoop_spec b adv start_pos end_pos B hne (bfsFuel B)
    [(start_pos, 0)] [start_pos] (fun _ => 0)
  · refine ⟨List.nodup_singleton _, List.mem_singleton_self _, rfl, ?_, ?_, ?_,
      ?_, ?_, ?_, ?_⟩
    · intro p hp
      rw [List.mem_singleton] at hp
      subst hp
      exact ⟨ReachLe.refl 0, Nat.zero_le B, hne⟩
    · intro x hx
      rw [List.mem_singleton] at hx
      subst hx
      exact ⟨List.mem_singleton_self _, rfl⟩
    · simp
    · intro p hp hnq
      rw [List.mem_singleton] at hp
      subst hp
      exact absurd rfl (hnq (p, 0) (List.mem_singleton_self _))
    · simp
    · intro x hx y hy
      rw [List.mem_singleton] at hx hy
      subst hx
      subst hy
      omega
    · intro x hx p hp
      exact Nat.zero_le _
  · simp [bfsFuel]
    omega

/-- Closed instance of C4: on the bordered, otherwise empty 4×4 board with
the opponent at `(3, 3)` and `max_step = 2`, moving from `(0, 0)` to
`(0, 2)` (wall down) is valid iff that cell is reachable within 2 steps. -/
theorem check_valid_step_spec_witness :
    ((0, 0) : Pos) ≠ ((0, 2) : Pos) ∧
    initBoard 4 (0, 2).1 (0, 2).2 2 = false ∧
    (check_valid_step (initBoard 4) 2 (3, 3) (0, 0) (0, 2) 2 = true ↔
      ReachLe (initBoard 4) (3, 3) (0, 0) 2 (0, 2)) :=
  ⟨by decide, by decide,
   check_valid_step_spec 4 (initBoard 4) 2 (3, 3) (0, 0) (0, 2) 2
     (by decide) (by decide) (by decide) (by decide) (by decide) (by decide)⟩

/-! ### `random_walk` correctness (C8) -/

theorem opposites_lt (d : Nat) (hd : d < 4) : opposites d < 4 := by
  interval_cases d <;> decide

theorem ReachLe.head {b : Board} {adv p : Pos} {n : Nat} {q : Pos}
    (d : Nat) (hd : d < 4) (hw : b p.1 p.2 d = false) (hadv : nbr p d ≠ adv)
    (h : ReachLe b adv (nbr p d) n q) : ReachLe b adv p (n + 1) q := by
  induction h with
  | refl n => exact ReachLe.tail d hd hw hadv (ReachLe.refl n)
  | tail d' hd' hw' hadv' _ IH => exact ReachLe.tail d' hd' hw' hadv' IH

theorem borderInv_step (N : Nat) (b : Board) (p : Pos) (d : Nat)
    (hB : BorderInv N b) (hp : InB N p) (hd : d < 4)
    (hop : b p.1 p.2 d = false) : InB N (nbr p d) := by
  obtain ⟨h1, h2, h3, h4⟩ := hp
  have hr : ((p.1.toNat : Nat) : Int) = p.1 := Int.toNat_of_nonneg h1
  have hc : ((p.2.toNat : Nat) : Int) = p.2 := Int.toNat_of_nonneg h3
  have hrn : p.1.toNat < N := by omega
  have hcn : p.2.toNat < N := by omega
  obtain ⟨b0, b3, b2, b1⟩ := hB p.1.toNat hrn p.2.toNat hcn
  rw [hr, hc] at b0 b3 b2 b1
  constructor
  · show 0 ≤ p.1 + (moves d).1
    interval_cases d <;> simp only [moves] <;> try omega
    · -- d = 0: moving up; p.1 ≠ 0 since the up border wall is set there
      by_cases h : p.1.toNat = 0
      · rw [b0 h] at hop
        cases hop
      · omega
  constructor
  · show p.1 + (moves d).1 < (N : Int)
    interval_cases d <;> simp only [moves] <;> try omega
    · -- d = 2: moving down; p.1 ≠ N - 1 since the down border wall is set
      by_cases h : p.1.toNat = N - 1
      · rw [b2 h] at hop
        cases hop
      · omega
  constructor
  · show 0 ≤ p.2 + (moves d).2
    interval_cases d <;> simp only [moves] <;> try omega
    · -- d = 3: moving left
      by_cases h : p.2.toNat = 0
      · rw [b3 h] at hop
        cases hop
      · omega
  · show p.2 + (moves d).2 < (N : Int)
    interval_cases d <;> simp only [moves] <;> try omega
    · -- d = 1: moving right
      by_cases h : p.2.toNat = N - 1
      · rw [b1 h] at hop
        cases hop
      · omega

theorem mirrorInv_step (N : Nat) (b : Board) (p : Pos) (d : Nat)
    (hM : MirrorInv N b) (hp : InB N p) (hq : InB N (nbr p d)) (hd : d < 4) :
    b (nbr p d).1 (nbr p d).2 (opposites d) = b p.1 p.2 d := by
  obtain ⟨h1, h2, h3, h4⟩ := hp
  have hr : ((p.1.toNat : Nat) : Int) = p.1 := Int.toNat_of_nonneg h1
  have hc : ((p.2.toNat : Nat) : Int) = p.2 := Int.toNat_of_nonneg h3
  have hm := hM p.1.toNat (by omega) p.2.toNat (by omega) d hd
  rw [hr, hc] at hm
  exact (hm hq).symm

theorem rwAllowed_mem (b : Board) (adv p : Pos) (d : Nat)
    (h : d ∈ rwAllowed b adv p) :
    d < 4 ∧ b p.1 p.2 d = false ∧ nbr p d ≠ adv := by
  unfold rwAllowed at h
  rw [List.mem_filter] at h
  obtain ⟨h1, h2⟩ := h
  rw [Bool.and_eq_true, Bool.not_eq_true', Bool.not_eq_true'] at h2
  refine ⟨List.mem_range.mp h1, h2.1, ?_⟩
  have := of_decide_eq_false h2.2
  exact this

theorem rwAllowed_nil (b : Board) (adv p : Pos)
    (h : ∀ d, d < 4 → b p.1 p.2 d = true) : rwAllowed b adv p = [] := by
  unfold rwAllowed
  rw [List.filter_eq_nil]
  intro d hd
  rw [h d (List.mem_range.mp hd)]
  simp

theorem rwBarriers_mem (b : Board) (p : Pos) (d : Nat)
    (h : d ∈ rwBarriers b p) : d < 4 ∧ b p.1 p.2 d = false := by
  unfold rwBarriers at h
  rw [List.mem_filter] at h
  obtain ⟨h1, h2⟩ := h
  rw [Bool.not_eq_true'] at h2
  exact ⟨List.mem_range.mp h1, h2⟩

theorem rwBarriers_mem_of (b : Board) (p : Pos) (d : Nat) (hd : d < 4)
    (hop : b p.1 p.2 d = false) : d ∈ rwBarriers b p := by
  unfold rwBarriers
  rw [List.mem_filter]
  exact ⟨List.mem_range.mpr hd, by rw [hop]; rfl⟩

theorem walkLoop_spec (N : Nat) (b : Board) (adv : Pos) (rng : Nat → Nat)
    (hB : BorderInv N b) (hM : MirrorInv N b) :
    ∀ (k i : Nat) (p : Pos), InB N p →
      (∃ d, d < 4 ∧ b p.1 p.2 d = false) →
      InB N (walkLoop b adv rng k i p).1 ∧
      (∃ d, d < 4 ∧
        b (walkLoop b adv rng k i p).1.1 (walkLoop b adv rng k i p).1.2 d = false) ∧
      ReachLe b adv p k (walkLoop b adv rng k i p).1 := by
  intro k
  induction k with
  | zero =>
    intro i p hp hopen
    exact ⟨hp, hopen, ReachLe.refl 0⟩
  | succ k IH =>
    intro i p hp hopen
    simp only [walkLoop]
    split
    · exact ⟨hp, hopen, ReachLe.refl (k + 1)⟩
    · next h =>
      have hmem : (rwAllowed b adv p).get
          ⟨rng i % (rwAllowed b adv p).length,
           Nat.mod_lt _ (Nat.pos_of_ne_zero h)⟩ ∈ rwAllowed b adv p :=
        List.get_mem _ _ _
      obtain ⟨hd4, hop, hadv⟩ := rwAllowed_mem b adv p _ hmem
      have hin' : InB N (nbr p ((rwAllowed b adv p).get
          ⟨rng i % (rwAllowed b adv p).length,
           Nat.mod_lt _ (Nat.pos_of_ne_zero h)⟩)) :=
        borderInv_step N b p _ hB hp hd4 hop
      have hopen' : ∃ d, d < 4 ∧
          b (nbr p ((rwAllowed b adv p).get
            ⟨rng i % (rwAllowed b adv p).length,
             Nat.mod_lt _ (Nat.pos_of_ne_zero h)⟩)).1
            (nbr p ((rwAllowed b adv p).get
            ⟨rng i % (rwAllowed b adv p).length,
             Nat.mod_lt _ (Nat.pos_of_ne_zero h)⟩)).2 d = false := by
        refine ⟨opposites _, opposites_lt _ hd4, ?_⟩
        rw [mirrorInv_step N b p _ hM hp hin' hd4]
        exact hop
      obtain ⟨c1, c2, c3⟩ := IH (i + 1) _ hin' hopen'
      exact ⟨c1, c2, ReachLe.head _ hd4 hop hadv c3⟩

/-- C8: on a board with border walls and mirrored wall pairs (the only
boards the engine ever passes), for a mover whose cell has at least one
free direction, `random_walk` returns a destination reachable from the
start within `max_step` steps (avoiding walls and the opponent's cell)
together with a wall direction not already set there; the drawn step count
lies in `[0, max_step]`; and from a cell with all four sides walled it
hits the internal assertion (`none`) instead of returning. -/
theorem random_walk_spec (N : Nat) (b : Board) (B : Nat) (my adv : Pos)
    (rng : Nat → Nat) (hB : BorderInv N b) (hM : MirrorInv N b)
    (hmy : InB N my) :
    rwSteps B rng ≤ B ∧
    ((∃ d, d < 4 ∧ b my.1 my.2 d = false) →
      ∃ p dir, random_walk B b my adv rng = some (p, dir) ∧
        ReachLe b adv my B p ∧ dir < 4 ∧ b p.1 p.2 dir = false) ∧
    ((∀ d, d < 4 → b my.1 my.2 d = true) →
      random_walk B b my adv rng = none) := by
  refine ⟨by have := Nat.mod_lt (rng 0) (y := B + 1) (by omega); unfold rwSteps; omega,
    ?_, ?_⟩
  · intro hopen
    obtain ⟨c1, c2, c3⟩ := walkLoop_spec N b adv rng hB hM (rwSteps B rng) 1 my hmy hopen
    obtain ⟨d, hd4, hop⟩ := c2
    have hlen : (rwBarriers b (rwFin B b my adv rng).1).length ≠ 0 := by
      intro hc
      have hm := rwBarriers_mem_of b (rwFin B b my adv rng).1 d hd4 hop
      rw [List.length_eq_zero] at hc
      rw [hc] at hm
      cases hm
    refine ⟨(rwFin B b my adv rng).1,
      (rwBarriers b (rwFin B b my adv rng).1).get
        ⟨rng (rwFin B b my adv rng).2 % (rwBarriers b (rwFin B b my adv rng).1).length,
         Nat.mod_lt _ (Nat.pos_of_ne_zero hlen)⟩, ?_, ?_, ?_, ?_⟩
    · unfold random_walk
      rw [dif_neg hlen]
    · exact c3.widen (by
        have := Nat.mod_lt (rng 0) (y := B + 1) (by omega)
        unfold rwSteps
        omega)
    · exact (rwBarriers_mem b _ _ (List.get_mem _ _ _)).1
    · exact (rwBarriers_mem b _ _ (List.get_mem _ _ _)).2
  · intro hwalled
    have hfin : rwFin B b my adv rng = (my, 1) := by
      unfold rwFin
      cases hk : rwSteps B rng with
      | zero => rfl
      | succ k =>
        simp only [walkLoop]
        rw [dif_pos (by rw [rwAllowed_nil b adv my hwalled]; rfl)]
    unfold random_walk
    rw [dif_pos]
    rw [hfin]
    show (rwBarriers b my).length = 0
    have : rwBarriers b my = [] := by
      unfold rwBarriers
      rw [List.filter_eq_nil]
      intro d hd
      rw [hwalled d (List.mem_range.mp hd)]
      simp
    rw [this]
    rfl

/-- Closed instance of C8 on the bordered, otherwise empty 4×4 board. -/
theorem random_walk_spec_witness :
    (BorderInv 4 (initBoard 4) ∧ MirrorInv 4 (initBoard 4) ∧
      InB 4 ((0, 0) : Pos)) ∧
    (rwSteps 2 (fun _ => 0) ≤ 2 ∧
     ((∃ d, d < 4 ∧ initBoard 4 (0, 0).1 (0, 0).2 d = false) →
       ∃ p dir, random_walk 2 (initBoard 4) (0, 0) (3, 3) (fun _ => 0) =
           some (p, dir) ∧
         ReachLe (initBoard 4) (3, 3) (0, 0) 2 p ∧ dir < 4 ∧
         initBoard 4 p.1 p.2 dir = false) ∧
     ((∀ d, d < 4 → initBoard 4 (0, 0).1 (0, 0).2 d = true) →
       random_walk 2 (initBoard 4) (0, 0) (3, 3) (fun _ => 0) = none)) :=
  ⟨⟨by decide, by decide, by decide⟩,
   random_walk_spec 4 (initBoard 4) 2 (0, 0) (3, 3) (fun _ => 0)
     (by decide) (by decide) (by decide)⟩

/-! ### Union-find correctness for `check_endgame` (C3, C6) -/

theorem fapp_nil (p : Pos) : fapp [] p = p := rfl

theorem fapp_fupd (f : FMap) (p v q : Pos) :
    fapp (fupd f p v) q = if q = p then v else fapp f q := by
  unfold fapp fupd
  by_cases h : q = p
  · rw [List.find?_cons_of_pos _ (by simp [h]), if_pos h]
    rfl
  · rw [List.find?_cons_of_neg _ (by simp; exact fun hc => h hc.symm), if_neg h]

theorem iterF_zero (f : FMap) (p : Pos) : iterF f 0 p = p := rfl

theorem iterF_succ (f : FMap) (k : Nat) (p : Pos) :
    iterF f (k + 1) p = iterF f k (fapp f p) := by
  unfold iterF
  exact Function.iterate_succ_apply (fapp f) k p

theorem iterF_succ' (f : FMap) (k : Nat) (p : Pos) :
    iterF f (k + 1) p = fapp f (iterF f k p) := by
  unfold iterF
  exact Function.iterate_succ_apply' (fapp f) k p

theorem iterF_add (f : FMap) (k m : Nat) (p : Pos) :
    iterF f (m + k) p = iterF f m (iterF f k p) := by
  unfold iterF
  exact Function.iterate_add_apply (fapp f) m k p

theorem root_stable (f : FMap) (r : Pos) (hr : isRootF f r) :
    ∀ k, iterF f k r = r := by
  intro k
  induction k with
  | zero => rfl
  | succ k IH => rw [iterF_succ', IH]; exact hr

theorem root_le (f : FMap) (p r : Pos) (k : Nat) (hk : iterF f k p = r)
    (hr : isRootF f r) : ∀ j, k ≤ j → iterF f j p = r := by
  intro j hj
  obtain ⟨m, rfl⟩ := Nat.exists_eq_add_of_le hj
  rw [Nat.add_comm, iterF_add, hk]
  exact root_stable f r hr m

theorem RootRel_unique (f : FMap) (p r1 r2 : Pos) (h1 : RootRel f p r1)
    (h2 : RootRel f p r2) : r1 = r2 := by
  obtain ⟨hr1, k1, hk1⟩ := h1
  obtain ⟨hr2, k2, hk2⟩ := h2
  rcases Nat.le_total k1 k2 with h | h
  · rw [← hk2]
    exact (root_le f p r1 k1 hk1 hr1 k2 h).symm
  · rw [← hk1]
    exact root_le f p r2 k2 hk2 hr2 k1 h

theorem RootPres.refl (f : FMap) : RootPres f f :=
  fun q j hj => ⟨j, le_rfl, rfl, hj⟩

theorem RootPres.trans {f g h : FMap} (h1 : RootPres f g) (h2 : RootPres g h) :
    RootPres f h := by
  intro q j hj
  obtain ⟨j1, hle1, hv1, hr1⟩ := h1 q j hj
  obtain ⟨j2, hle2, hv2, hr2⟩ := h2 q j1 (hv1 ▸ hr1)
  exact ⟨j2, le_trans hle2 hle1, by rw [hv2, hv1], hr2⟩

theorem RootPres.isRoot {f g : FMap} (h : RootPres f g) {r : Pos}
    (hr : isRootF f r) : isRootF g r := by
  obtain ⟨j', hle, hv, hroot⟩ := h r 0 hr
  have : j' = 0 := Nat.le_zero.mp hle
  subst this
  exact hroot

theorem RootPres.rootRel {f g : FMap} (h : RootPres f g) {p r : Pos}
    (hr : RootRel f p r) : RootRel g p r := by
  obtain ⟨hroot, k, hk⟩ := hr
  obtain ⟨j', hle, hv, hroot'⟩ := h p k (by rw [hk]; exact hroot)
  rw [hk] at hv
  exact ⟨h.isRoot hroot, j', hv⟩

theorem RootPres.depthLe {f g : FMap} {B : Nat} (h : RootPres f g)
    (hd : DepthLe f B) : DepthLe g B := by
  intro p
  obtain ⟨j, hle, hj⟩ := hd p
  obtain ⟨j', hle', hv, hroot⟩ := h p j hj
  exact ⟨j', le_trans hle' hle, hroot⟩

theorem DepthLe.exists_root {f : FMap} {B : Nat} (hd : DepthLe f B) (p : Pos) :
    ∃ r, RootRel f p r := by
  obtain ⟨j, _, hj⟩ := hd p
  exact ⟨iterF f j p, hj, j, rfl⟩

theorem RootPres.rootEq {f g : FMap} {B : Nat} (h : RootPres f g)
    (hd : DepthLe f B) (x y : Pos) : rootEqF f x y ↔ rootEqF g x y := by
  constructor
  · rintro ⟨r, h1, h2⟩
    exact ⟨r, h.rootRel h1, h.rootRel h2⟩
  · rintro ⟨s, h1, h2⟩
    obtain ⟨r1, hr1⟩ := hd.exists_root x
    obtain ⟨r2, hr2⟩ := hd.exists_root y
    have e1 : r1 = s := RootRel_unique g x r1 s (h.rootRel hr1) h1
    have e2 : r2 = s := RootRel_unique g y r2 s (h.rootRel hr2) h2
    refine ⟨r1, hr1, ?_⟩
    rw [e1, ← e2]
    exact hr2

theorem RootPres.parent_stable {f g : FMap} (h : RootPres f g) {p r : Pos}
    (hp : fapp f p = r) (hr : isRootF f r) : fapp g p = r := by
  have h1 : iterF f 1 p = r := by rw [iterF_succ', iterF_zero, hp]
  obtain ⟨j', hle, hv, hroot⟩ := h p 1 (by rw [h1]; exact hr)
  rw [h1] at hv
  interval_cases j'
  · rw [iterF_zero] at hv
    subst hv
    exact hroot
  · rw [iterF_succ', iterF_zero] at hv
    exact hv

theorem compress_pres (g : FMap) (p r : Pos) (hr : isRootF g r)
    (hreach : ∃ k, iterF g k p = r) : RootPres g (fupd g p r) := by
  intro q j hj
  induction j generalizing q with
  | zero =>
    rw [iterF_zero] at hj
    refine ⟨0, le_rfl, rfl, ?_⟩
    show fapp (fupd g p r) q = q
    rw [fapp_fupd]
    by_cases hq : q = p
    · subst hq
      have : r = q := RootRel_unique g q r q ⟨hr, hreach⟩ ⟨hj, 0, rfl⟩
      rw [if_pos rfl, this]
    · rw [if_neg hq]
      exact hj
  | succ j IH =>
    by_cases hq : q = p
    · subst hq
      have hval : iterF g (j + 1) q = r :=
        RootRel_unique g q _ r ⟨hj, j + 1, rfl⟩ ⟨hr, hreach⟩
      have hroot' : isRootF (fupd g q r) r := by
        show fapp (fupd g q r) r = r
        rw [fapp_fupd]
        by_cases hrq : r = q
        · rw [if_pos hrq, hrq]
        · rw [if_neg hrq]
          exact hr
      refine ⟨1, by omega, ?_, ?_⟩
      · rw [iterF_succ', iterF_zero, fapp_fupd, if_pos rfl, hval]
      · rw [iterF_succ', iterF_zero, fapp_fupd, if_pos rfl]
        exact hroot'
    · rw [iterF_succ] at hj
      obtain ⟨j', hle, hv, hroot⟩ := IH (fapp g q) hj
      refine ⟨j' + 1, by omega, ?_, ?_⟩
      · rw [iterF_succ, fapp_fupd, if_neg hq, hv, ← iterF_succ]
      · rw [iterF_succ, fapp_fupd, if_neg hq]
        exact hroot

theorem ufFind_succ (f : FMap) (p : Pos) (fuel : Nat) :
    ufFind f p (fuel + 1) =
      if fapp f p = p then (p, f)
      else ((ufFind f (fapp f p) fuel).1,
        fupd (ufFind f (fapp f p) fuel).2 p (ufFind f (fapp f p) fuel).1) := rfl

theorem ufFind_spec : ∀ (fuel : Nat) (f : FMap) (p r : Pos) (k : Nat),
    iterF f k p = r → isRootF f r → k ≤ fuel →
    (ufFind f p fuel).1 = r ∧ fapp (ufFind f p fuel).2 p = r ∧
      RootPres f (ufFind f p fuel).2 := by
  intro fuel
  induction fuel with
  | zero =>
    intro f p r k hk hr hle
    have : k = 0 := Nat.le_zero.mp hle
    subst this
    rw [iterF_zero] at hk
    subst hk
    exact ⟨rfl, hr, RootPres.refl f⟩
  | succ fuel IH =>
    intro f p r k hk hr hle
    rw [ufFind_succ]
    by_cases h0 : fapp f p = p
    · rw [if_pos h0]
      have : r = p := RootRel_unique f p r p ⟨hr, k, hk⟩ ⟨h0, 0, rfl⟩
      subst this
      exact ⟨rfl, h0, RootPres.refl f⟩
    · rw [if_neg h0]
      have hrel : RootRel f p r := ⟨hr, k, hk⟩
      rcases k with _ | k
      · rw [iterF_zero] at hk
        subst hk
        exact absurd hr h0
      · rw [iterF_succ] at hk
        obtain ⟨ih1, ih2, ih3⟩ := IH f (fapp f p) r k hk hr (by omega)
        refine ⟨ih1, ?_, ?_⟩
        · show fapp (fupd (ufFind f (fapp f p) fuel).2 p
            (ufFind f (fapp f p) fuel).1) p = r
          rw [fapp_fupd, if_pos rfl, ih1]
        · show RootPres f (fupd (ufFind f (fapp f p) fuel).2 p
            (ufFind f (fapp f p) fuel).1)
          rw [ih1]
          refine ih3.trans (compress_pres _ p r (ih3.isRoot hr) ?_)
          exact (ih3.rootRel hrel).2

theorem union_pres (g : FMap) (a bb : Pos) (ha : isRootF g a)
    (hb : isRootF g bb) (hab : a ≠ bb) :
    ∀ (j : Nat) (q : Pos), isRootF g (iterF g j q) →
      ∃ j' ≤ j + 1, iterF (fupd g a bb) j' q =
          (if iterF g j q = a then bb else iterF g j q) ∧
        isRootF (fupd g a bb) (iterF (fupd g a bb) j' q) := by
  have hrootbb : isRootF (fupd g a bb) bb := by
    show fapp (fupd g a bb) bb = bb
    rw [fapp_fupd, if_neg (fun hc => hab hc.symm)]
    exact hb
  intro j
  induction j with
  | zero =>
    intro q hq
    rw [iterF_zero] at hq
    by_cases hqa : q = a
    · subst hqa
      refine ⟨1, by omega, ?_, ?_⟩
      · rw [iterF_succ', iterF_zero, fapp_fupd, if_pos rfl, iterF_zero,
          if_pos rfl]
      · rw [iterF_succ', iterF_zero, fapp_fupd, if_pos rfl]
        exact hrootbb
    · refine ⟨0, by omega, ?_, ?_⟩
      · rw [iterF_zero, iterF_zero, if_neg hqa]
      · rw [iterF_zero]
        show fapp (fupd g a bb) q = q
        rw [fapp_fupd, if_neg hqa]
        exact hq
  | succ j IH =>
    intro q hq
    by_cases hqa : q = a
    · subst hqa
      have hstab : iterF g (j + 1) q = q := root_stable g q ha (j + 1)
      refine ⟨1, by omega, ?_, ?_⟩
      · rw [iterF_succ', iterF_zero, fapp_fupd, if_pos rfl, hstab, if_pos rfl]
      · rw [iterF_succ', iterF_zero, fapp_fupd, if_pos rfl]
        exact hrootbb
    · rw [iterF_succ] at hq
      obtain ⟨j', hle, hv, hroot⟩ := IH (fapp g q) hq
      refine ⟨j' + 1, by omega, ?_, ?_⟩
      · rw [iterF_succ (fupd g a bb), fapp_fupd, if_neg hqa, hv,
          iterF_succ g]
      · rw [iterF_succ (fupd g a bb), fapp_fupd, if_neg hqa]
        exact hroot

theorem union_depthLe (g : FMap) (a bb : Pos) (B : Nat) (ha : isRootF g a)
    (hb : isRootF g bb) (hab : a ≠ bb) (hd : DepthLe g B) :
    DepthLe (fupd g a bb) (B + 1) := by
  intro p
  obtain ⟨j, hle, hj⟩ := hd p
  obtain ⟨j', hle', hv, hroot⟩ := union_pres g a bb ha hb hab j p hj
  exact ⟨j', by omega, hroot⟩

theorem union_rootEq (g : FMap) (a bb : Pos) (B : Nat) (ha : isRootF g a)
    (hb : isRootF g bb) (hab : a ≠ bb) (hd : DepthLe g B) (x y : Pos) :
    rootEqF (fupd g a bb) x y ↔
      (rootEqF g x y ∨ (rootEqF g x a ∧ rootEqF g y bb) ∨
        (rootEqF g x bb ∧ rootEqF g y a)) := by
  have key : ∀ z r, RootRel g z r →
      RootRel (fupd g a bb) z (if r = a then bb else r) := by
    intro z r hr
    obtain ⟨hroot, k, hk⟩ := hr
    obtain ⟨j', hle, hv, hroot'⟩ :=
      union_pres g a bb ha hb hab k z (by rw [hk]; exact hroot)
    rw [hk] at hv
    exact ⟨by rw [← hv]; exact hroot', j', hv⟩
  constructor
  · rintro ⟨s, hx, hy⟩
    obtain ⟨rx, hrx⟩ := hd.exists_root x
    obtain ⟨ry, hry⟩ := hd.exists_root y
    have ex : s = if rx = a then bb else rx :=
      RootRel_unique _ x _ _ hx (key x rx hrx)
    have ey : s = if ry = a then bb else ry :=
      RootRel_unique _ y _ _ hy (key y ry hry)
    by_cases hxa : rx = a <;> by_cases hya : ry = a
    · left
      exact ⟨a, hxa ▸ hrx, hya ▸ hry⟩
    · rw [if_pos hxa] at ex
      rw [if_neg hya] at ey
      right; left
      refine ⟨⟨a, hxa ▸ hrx, ⟨ha, 0, rfl⟩⟩, ?_⟩
      have : ry = bb := by rw [← ey, ex]
      exact ⟨bb, this ▸ hry, ⟨hb, 0, rfl⟩⟩
    · rw [if_neg hxa] at ex
      rw [if_pos hya] at ey
      right; right
      refine ⟨?_, ⟨a, hya ▸ hry, ⟨ha, 0, rfl⟩⟩⟩
      have : rx = bb := by rw [← ex, ey]
      exact ⟨bb, this ▸ hrx, ⟨hb, 0, rfl⟩⟩
    · rw [if_neg hxa] at ex
      rw [if_neg hya] at ey
      left
      have : rx = ry := by rw [← ex, ey]
      exact ⟨rx, hrx, this ▸ hry⟩
  · rintro (⟨s, hx, hy⟩ | ⟨⟨s1, hx1, ha1⟩, ⟨s2, hy2, hb2⟩⟩ |
      ⟨⟨s1, hx1, hb1⟩, ⟨s2, hy2, ha2⟩⟩)
    · exact ⟨if s = a then bb else s, key x s hx, key y s hy⟩
    · have e1 : s1 = a := RootRel_unique g a s1 a ha1 ⟨ha, 0, rfl⟩
      have e2 : s2 = bb := RootRel_unique g bb s2 bb hb2 ⟨hb, 0, rfl⟩
      refine ⟨bb, ?_, ?_⟩
      · have := key x s1 hx1
        rw [e1, if_pos rfl] at this
        exact this
      · have := key y s2 hy2
        rw [e2, if_neg (fun hc => hab hc.symm)] at this
        exact this
    · have e1 : s1 = bb := RootRel_unique g bb s1 bb hb1 ⟨hb, 0, rfl⟩
      have e2 : s2 = a := RootRel_unique g a s2 a ha2 ⟨ha, 0, rfl⟩
      refine ⟨bb, ?_, ?_⟩
      · have := key x s1 hx1
        rw [e1, if_neg (fun hc => hab hc.symm)] at this
        exact this
      · have := key y s2 hy2
        rw [e2, if_pos rfl] at this
        exact this

theorem eqvGen_ext {α : Type} {R S : α → α → Prop} (h : ∀ x y, R x y ↔ S x y)
    {x y : α} : Relation.EqvGen R x y ↔ Relation.EqvGen S x y :=
  ⟨Relation.EqvGen.mono (fun a b hab => (h a b).mp hab),
   Relation.EqvGen.mono (fun a b hab => (h a b).mpr hab)⟩

theorem eqvGen_bot {α : Type} {x y : α} :
    Relation.EqvGen (fun _ _ => False) x y ↔ x = y := by
  constructor
  · intro h
    induction h with
    | rel _ _ h => exact h.elim
    | refl => rfl
    | symm _ _ _ IH => exact IH.symm
    | trans _ _ _ _ _ IH1 IH2 => exact IH1.trans IH2
  · rintro rfl
    exact Relation.EqvGen.refl x

theorem eqvGen_union_iff {α : Type} (R : α → α → Prop) (a bb : α) (x y : α) :
    Relation.EqvGen (fun u v => R u v ∨ (u = a ∧ v = bb)) x y ↔
      (Relation.EqvGen R x y ∨
        (Relation.EqvGen R x a ∧ Relation.EqvGen R bb y) ∨
        (Relation.EqvGen R x bb ∧ Relation.EqvGen R a y)) := by
  constructor
  · intro h
    induction h with
    | rel u v huv =>
      rcases huv with h' | ⟨rfl, rfl⟩
      · exact Or.inl (Relation.EqvGen.rel _ _ h')
      · exact Or.inr (Or.inl ⟨Relation.EqvGen.refl _, Relation.EqvGen.refl _⟩)
    | refl u => exact Or.inl (Relation.EqvGen.refl u)
    | symm u v _ IH =>
      rcases IH with h1 | ⟨h1, h2⟩ | ⟨h1, h2⟩
      · exact Or.inl (Relation.EqvGen.symm _ _ h1)
      · exact Or.inr (Or.inr
          ⟨Relation.EqvGen.symm _ _ h2, Relation.EqvGen.symm _ _ h1⟩)
      · exact Or.inr (Or.inl
          ⟨Relation.EqvGen.symm _ _ h2, Relation.EqvGen.symm _ _ h1⟩)
    | trans u v w _ _ IH1 IH2 =>
      rcases IH1 with h1 | ⟨h1a, h1b⟩ | ⟨h1a, h1b⟩ <;>
        rcases IH2 with h2 | ⟨h2a, h2b⟩ | ⟨h2a, h2b⟩
      · exact Or.inl (Relation.EqvGen.trans _ _ _ h1 h2)
      · exact Or.inr (Or.inl ⟨Relation.EqvGen.trans _ _ _ h1 h2a, h2b⟩)
      · exact Or.inr (Or.inr ⟨Relation.EqvGen.trans _ _ _ h1 h2a, h2b⟩)
      · exact Or.inr (Or.inl ⟨h1a, Relation.EqvGen.trans _ _ _ h1b h2⟩)
      · exact Or.inl (Relation.EqvGen.trans _ _ _ h1a
          (Relation.EqvGen.trans _ _ _
            (Relation.EqvGen.symm _ _ (Relation.EqvGen.trans _ _ _ h1b h2a)) h2b))
      · exact Or.inl (Relation.EqvGen.trans _ _ _ h1a h2b)
      · exact Or.inr (Or.inr ⟨h1a, Relation.EqvGen.trans _ _ _ h1b h2⟩)
      · exact Or.inl (Relation.EqvGen.trans _ _ _ h1a h2b)
      · exact Or.inl (Relation.EqvGen.trans _ _ _ h1a
          (Relation.EqvGen.trans _ _ _
            (Relation.EqvGen.symm _ _ (Relation.EqvGen.trans _ _ _ h1b h2a)) h2b))
  · have edge : Relation.EqvGen (fun u v => R u v ∨ (u = a ∧ v = bb)) a bb :=
      Relation.EqvGen.rel _ _ (Or.inr ⟨rfl, rfl⟩)
    rintro (h | ⟨h1, h2⟩ | ⟨h1, h2⟩)
    · exact Relation.EqvGen.mono (fun u v huv => Or.inl huv) h
    · exact Relation.EqvGen.trans _ _ _
        (Relation.EqvGen.trans _ _ _
          (Relation.EqvGen.mono (fun u v huv => Or.inl huv) h1) edge)
        (Relation.EqvGen.mono (fun u v huv => Or.inl huv) h2)
    · exact Relation.EqvGen.trans _ _ _
        (Relation.EqvGen.trans _ _ _
          (Relation.EqvGen.mono (fun u v huv => Or.inl huv) h1)
          (Relation.EqvGen.symm _ _ edge))
        (Relation.EqvGen.mono (fun u v huv => Or.inl huv) h2)

theorem eqvGen_add_connected {α : Type} {R : α → α → Prop} {a bb : α}
    (hconn : Relation.EqvGen R a bb) (x y : α) :
    Relation.EqvGen (fun u v => R u v ∨ (u = a ∧ v = bb)) x y ↔
      Relation.EqvGen R x y := by
  rw [eqvGen_union_iff]
  constructor
  · rintro (h | ⟨h1, h2⟩ | ⟨h1, h2⟩)
    · exact h
    · exact Relation.EqvGen.trans _ _ _ h1 (Relation.EqvGen.trans _ _ _ hconn h2)
    · exact Relation.EqvGen.trans _ _ _ h1
        (Relation.EqvGen.trans _ _ _ (Relation.EqvGen.symm _ _ hconn) h2)
  · exact Or.inl

theorem DepthLe.relax {f : FMap} {B B' : Nat} (h : DepthLe f B) (hB : B ≤ B') :
    DepthLe f B' := by
  intro p
  obtain ⟨j, hle, hj⟩ := h p
  exact ⟨j, le_trans hle hB, hj⟩

theorem eqvGen_symm_iff {α : Type} (R : α → α → Prop) (x y : α) :
    Relation.EqvGen R x y ↔ Relation.EqvGen R y x :=
  ⟨Relation.EqvGen.symm _ _, Relation.EqvGen.symm _ _⟩

theorem rootEq_root (g : FMap) (z w r : Pos) (hr : RootRel g w r) :
    rootEqF g z r ↔ rootEqF g z w := by
  constructor
  · rintro ⟨s, h1, h2⟩
    have e : s = r := RootRel_unique g r s r h2 ⟨hr.1, 0, rfl⟩
    exact ⟨r, e ▸ h1, hr⟩
  · rintro ⟨s, h1, h2⟩
    have e : s = r := RootRel_unique g w s r h2 hr
    exact ⟨r, e ▸ h1, ⟨hr.1, 0, rfl⟩⟩

theorem baseRel_cons (b : Board) (e : Pos × Nat) (l : List (Pos × Nat))
    (u v : Pos) :
    baseRel b (e :: l) u v ↔ edgeRel b e u v ∨ baseRel b l u v := by
  unfold baseRel edgeRel
  constructor
  · rintro ⟨e', he', hop, h1, h2⟩
    rcases List.mem_cons.mp he' with rfl | he''
    · exact Or.inl ⟨hop, h1, h2⟩
    · exact Or.inr ⟨e', he'', hop, h1, h2⟩
  · rintro (⟨hop, h1, h2⟩ | ⟨e', he', hop, h1, h2⟩)
    · exact ⟨e, List.mem_cons_self _ _, hop, h1, h2⟩
    · exact ⟨e', List.mem_cons_of_mem _ he', hop, h1, h2⟩

theorem edgeStep_eq (N : Nat) (b : Board) (f : FMap) (pd : Pos × Nat) :
    edgeStep N b f pd =
      if b pd.1.1 pd.1.2 pd.2 then f
      else if (ufFind f pd.1 (findFuel N)).1 =
          (ufFind (ufFind f pd.1 (findFuel N)).2 (nbr pd.1 pd.2) (findFuel N)).1
        then (ufFind (ufFind f pd.1 (findFuel N)).2 (nbr pd.1 pd.2) (findFuel N)).2
        else fupd
          (ufFind (ufFind f pd.1 (findFuel N)).2 (nbr pd.1 pd.2) (findFuel N)).2
          (ufFind f pd.1 (findFuel N)).1
          (ufFind (ufFind f pd.1 (findFuel N)).2 (nbr pd.1 pd.2) (findFuel N)).1 :=
  rfl

theorem foldl_edge_inv (N : Nat) (b : Board) :
    ∀ (l : List (Pos × Nat)) (f : FMap) (B : Nat) (R : Pos → Pos → Prop),
      B + l.length + 1 ≤ findFuel N →
      DepthLe f B →
      (∀ x y, rootEqF f x y ↔ Relation.EqvGen R x y) →
      DepthLe (l.foldl (edgeStep N b) f) (B + l.length) ∧
      (∀ x y, rootEqF (l.foldl (edgeStep N b) f) x y ↔
        Relation.EqvGen (fun u v => R u v ∨ baseRel b l u v) x y) := by
  intro l
  induction l with
  | nil =>
    intro f B R hfuel hd hR
    refine ⟨by simpa using hd, ?_⟩
    intro x y
    rw [List.foldl_nil, hR x y]
    apply eqvGen_ext
    intro u v
    simp [baseRel]
  | cons e l IH =>
    intro f B R hfuel hd hR
    rw [List.foldl_cons]
    rw [List.length_cons] at hfuel
    by_cases hw : b e.1.1 e.1.2 e.2
    · have hes : edgeStep N b f e = f := by rw [edgeStep_eq, if_pos hw]
      rw [hes]
      obtain ⟨d1, d2⟩ := IH f B R (by omega) hd hR
      refine ⟨d1.relax (by rw [List.length_cons]; omega), ?_⟩
      intro x y
      rw [d2 x y]
      apply eqvGen_ext
      intro u v
      rw [baseRel_cons]
      constructor
      · rintro (h | h)
        · exact Or.inl h
        · exact Or.inr (Or.inr h)
      · rintro (h | ⟨hop, h1, h2⟩ | h)
        · exact Or.inl h
        · rw [hw] at hop
          cases hop
        · exact Or.inr h
    · have hes : edgeStep N b f e =
          if (ufFind f e.1 (findFuel N)).1 =
              (ufFind (ufFind f e.1 (findFuel N)).2 (nbr e.1 e.2) (findFuel N)).1
            then (ufFind (ufFind f e.1 (findFuel N)).2 (nbr e.1 e.2) (findFuel N)).2
            else fupd
              (ufFind (ufFind f e.1 (findFuel N)).2 (nbr e.1 e.2) (findFuel N)).2
              (ufFind f e.1 (findFuel N)).1
              (ufFind (ufFind f e.1 (findFuel N)).2 (nbr e.1 e.2) (findFuel N)).1 := by
        rw [edgeStep_eq, if_neg hw]
      obtain ⟨ja, hjale, hja⟩ := hd e.1
      obtain ⟨f1a, f1b, f1pres⟩ := ufFind_spec (findFuel N) f e.1 _ ja rfl hja
        (by omega)
      have hd1 : DepthLe (ufFind f e.1 (findFuel N)).2 B := f1pres.depthLe hd
      obtain ⟨jb, hjble, hjb⟩ := hd1 (nbr e.1 e.2)
      obtain ⟨f2a, f2b, f2pres⟩ := ufFind_spec (findFuel N)
        (ufFind f e.1 (findFuel N)).2 (nbr e.1 e.2) _ jb rfl hjb (by omega)
      have hpres : RootPres f
          (ufFind (ufFind f e.1 (findFuel N)).2 (nbr e.1 e.2) (findFuel N)).2 :=
        f1pres.trans f2pres
      have hd2 : DepthLe
          (ufFind (ufFind f e.1 (findFuel N)).2 (nbr e.1 e.2) (findFuel N)).2 B :=
        hpres.depthLe hd
      have hReq : ∀ x y, rootEqF
          (ufFind (ufFind f e.1 (findFuel N)).2 (nbr e.1 e.2) (findFuel N)).2 x y ↔
          Relation.EqvGen R x y := by
        intro x y
        rw [← hpres.rootEq hd x y]
        exact hR x y
      have hraF2 : RootRel
          (ufFind (ufFind f e.1 (findFuel N)).2 (nbr e.1 e.2) (findFuel N)).2
          e.1 (ufFind f e.1 (findFuel N)).1 := by
        apply hpres.rootRel
        rw [f1a]
        exact ⟨hja, ja, rfl⟩
      have hrbF2 : RootRel
          (ufFind (ufFind f e.1 (findFuel N)).2 (nbr e.1 e.2) (findFuel N)).2
          (nbr e.1 e.2)
          (ufFind (ufFind f e.1 (findFuel N)).2 (nbr e.1 e.2) (findFuel N)).1 := by
        apply f2pres.rootRel
        rw [f2a]
        exact ⟨hjb, jb, rfl⟩
      have hedge_iff : rootEqF
          (ufFind (ufFind f e.1 (findFuel N)).2 (nbr e.1 e.2) (findFuel N)).2
          e.1 (nbr e.1 e.2) ↔
          (ufFind f e.1 (findFuel N)).1 =
            (ufFind (ufFind f e.1 (findFuel N)).2 (nbr e.1 e.2) (findFuel N)).1 := by
        constructor
        · rintro ⟨s, h1, h2⟩
          have e1 := RootRel_unique _ _ _ _ h1 hraF2
          have e2 := RootRel_unique _ _ _ _ h2 hrbF2
          rw [← e1, ← e2]
        · intro h
          exact ⟨_, h ▸ hraF2, hrbF2⟩
      by_cases heq : (ufFind f e.1 (findFuel N)).1 =
          (ufFind (ufFind f e.1 (findFuel N)).2 (nbr e.1 e.2) (findFuel N)).1
      · rw [hes, if_pos heq]
        have hconnR : Relation.EqvGen R e.1 (nbr e.1 e.2) :=
          (hReq _ _).mp (hedge_iff.mpr heq)
        have hprem : ∀ x y, rootEqF
            (ufFind (ufFind f e.1 (findFuel N)).2 (nbr e.1 e.2) (findFuel N)).2 x y ↔
            Relation.EqvGen (fun u v => R u v ∨ edgeRel b e u v) x y := by
          intro x y
          rw [hReq x y, ← eqvGen_add_connected hconnR x y]
          apply eqvGen_ext
          intro u v
          unfold edgeRel
          constructor
          · rintro (h | ⟨rfl, rfl⟩)
            · exact Or.inl h
            · exact Or.inr ⟨by simpa using hw, rfl, rfl⟩
          · rintro (h | ⟨hop, rfl, rfl⟩)
            · exact Or.inl h
            · exact Or.inr ⟨rfl, rfl⟩
        obtain ⟨d1, d2⟩ := IH _ B (fun u v => R u v ∨ edgeRel b e u v)
          (by omega) hd2 hprem
        refine ⟨d1.relax (by rw [List.length_cons]; omega), ?_⟩
        intro x y
        rw [d2 x y]
        apply eqvGen_ext
        intro u v
        rw [baseRel_cons]
        tauto
      · rw [hes, if_neg heq]
        have hdu : DepthLe (fupd
            (ufFind (ufFind f e.1 (findFuel N)).2 (nbr e.1 e.2) (findFuel N)).2
            (ufFind f e.1 (findFuel N)).1
            (ufFind (ufFind f e.1 (findFuel N)).2 (nbr e.1 e.2) (findFuel N)).1)
            (B + 1) :=
          union_depthLe _ _ _ B hraF2.1 hrbF2.1 heq hd2
        have hru : ∀ x y, rootEqF (fupd
            (ufFind (ufFind f e.1 (findFuel N)).2 (nbr e.1 e.2) (findFuel N)).2
            (ufFind f e.1 (findFuel N)).1
            (ufFind (ufFind f e.1 (findFuel N)).2 (nbr e.1 e.2) (findFuel N)).1) x y ↔
            Relation.EqvGen (fun u v => R u v ∨ edgeRel b e u v) x y := by
          intro x y
          rw [union_rootEq _ _ _ B hraF2.1 hrbF2.1 heq hd2]
          rw [rootEq_root _ x _ _ hraF2, rootEq_root _ y _ _ hrbF2,
            rootEq_root _ x _ _ hrbF2, rootEq_root _ y _ _ hraF2]
          rw [hReq x y, hReq x e.1, hReq y (nbr e.1 e.2), hReq x (nbr e.1 e.2),
            hReq y e.1]
          have target : Relation.EqvGen (fun u v => R u v ∨ edgeRel b e u v) x y ↔
              Relation.EqvGen (fun u v => R u v ∨ (u = e.1 ∧ v = nbr e.1 e.2)) x y := by
            apply eqvGen_ext
            intro u v
            unfold edgeRel
            constructor
            · rintro (h | ⟨hop, rfl, rfl⟩)
              · exact Or.inl h
              · exact Or.inr ⟨rfl, rfl⟩
            · rintro (h | ⟨rfl, rfl⟩)
              · exact Or.inl h
              · exact Or.inr ⟨by simpa using hw, rfl, rfl⟩
          rw [target, eqvGen_union_iff]
          rw [eqvGen_symm_iff R (nbr e.1 e.2) y, eqvGen_symm_iff R e.1 y]
        obtain ⟨d1, d2⟩ := IH _ (B + 1) (fun u v => R u v ∨ edgeRel b e u v)
          (by omega) hdu hru
        refine ⟨d1.relax (by rw [List.length_cons]; omega), ?_⟩
        intro x y
        rw [d2 x y]
        apply eqvGen_ext
        intro u v
        rw [baseRel_cons]
        tauto

theorem allCells_mem (N : Nat) (p : Pos) : p ∈ allCells N ↔ InB N p := by
  rcases p with ⟨a, c0⟩
  unfold allCells InB
  rw [List.mem_flatMap]
  constructor
  · rintro ⟨r, hr, hp⟩
    rw [List.mem_map] at hp
    obtain ⟨c, hc, hcc⟩ := hp
    rw [List.mem_range] at hr hc
    rw [Prod.mk.injEq] at hcc
    obtain ⟨h5, h6⟩ := hcc
    subst h5
    subst h6
    exact ⟨Int.natCast_nonneg r, Int.ofNat_lt.mpr hr,
      Int.natCast_nonneg c, Int.ofNat_lt.mpr hc⟩
  · rintro ⟨h1, h2, h3, h4⟩
    refine ⟨a.toNat, by rw [List.mem_range]; omega, ?_⟩
    rw [List.mem_map]
    refine ⟨c0.toNat, by rw [List.mem_range]; omega, ?_⟩
    rw [Prod.mk.injEq]
    exact ⟨Int.toNat_of_nonneg h1, Int.toNat_of_nonneg h3⟩

theorem allCells_nodup (N : Nat) : (allCells N).Nodup := by
  unfold allCells
  rw [List.nodup_flatMap]
  constructor
  · intro r _
    refine List.Nodup.map ?_ (List.nodup_range N)
    intro c1 c2 h
    rw [Prod.mk.injEq] at h
    exact Int.ofNat.inj h.2
  · refine (List.pairwise_lt_range N).imp ?_
    intro r1 r2 hlt x hx1 hx2
    rw [List.mem_map] at hx1 hx2
    obtain ⟨c1, _, rfl⟩ := hx1
    obtain ⟨c2, _, h⟩ := hx2
    rw [Prod.mk.injEq] at h
    have : r2 = r1 := Int.ofNat.inj h.1
    omega

theorem allCells_length (N : Nat) : (allCells N).length = N * N := by
  unfold allCells
  rw [List.length_flatMap]
  have : (List.map (List.length ∘ fun r =>
      List.map (fun c => (Int.ofNat r, Int.ofNat c)) (List.range N))
        (List.range N)) = List.map (fun _ => N) (List.range N) := by
    apply List.map_congr_left
    intro r _
    show (List.map _ (List.range N)).length = N
    rw [List.length_map, List.length_range]
  rw [this, List.map_const', List.sum_replicate, List.length_range, smul_eq_mul]

theorem edgeSeq_length (N : Nat) : (edgeSeq N).length = 2 * (N * N) := by
  unfold edgeSeq
  rw [List.length_flatMap]
  have : (List.map (List.length ∘ fun p => ([(p, 1), (p, 2)] : List (Pos × Nat)))
      (allCells N)) = List.map (fun _ => 2) (allCells N) := by
    apply List.map_congr_left
    intro p _
    rfl
  rw [this, List.map_const', List.sum_replicate, smul_eq_mul, allCells_length]
  ring

theorem edgeSeq_mem (N : Nat) (e : Pos × Nat) :
    e ∈ edgeSeq N ↔ e.1 ∈ allCells N ∧ (e.2 = 1 ∨ e.2 = 2) := by
  unfold edgeSeq
  rw [List.mem_flatMap]
  constructor
  · rintro ⟨p, hp, he⟩
    rcases List.mem_cons.mp he with rfl | he'
    · exact ⟨hp, Or.inl rfl⟩
    · rcases List.mem_cons.mp he' with rfl | he''
      · exact ⟨hp, Or.inr rfl⟩
      · exact absurd he'' (List.not_mem_nil e)
  · rcases e with ⟨p, d⟩
    rintro ⟨hp, hd | hd⟩ <;> subst hd
    · exact ⟨p, hp, List.mem_cons_self _ _⟩
    · exact ⟨p, hp, List.mem_cons_of_mem _ (List.mem_cons_self _ _)⟩

theorem depthLe_nil : DepthLe [] 0 := fun _ => ⟨0, le_rfl, rfl⟩

theorem iterF_nil (k : Nat) (z : Pos) : iterF ([] : FMap) k z = z := by
  induction k with
  | zero => rfl
  | succ k IH => rw [iterF_succ', IH]; rfl

theorem rootEq_nil (x y : Pos) : rootEqF [] x y ↔ x = y := by
  constructor
  · rintro ⟨r, ⟨_, k1, hk1⟩, ⟨_, k2, hk2⟩⟩
    rw [iterF_nil] at hk1 hk2
    rw [hk1, hk2]
  · rintro rfl
    exact ⟨x, ⟨rfl, 0, rfl⟩, ⟨rfl, 0, rfl⟩⟩

theorem compress_fold (N : Nat) : ∀ (l : List Pos) (g : FMap) (B : Nat),
    B ≤ findFuel N → DepthLe g B →
    RootPres g (l.foldl (fun h p => (ufFind h p (findFuel N)).2) g) ∧
    DepthLe (l.foldl (fun h p => (ufFind h p (findFuel N)).2) g) B ∧
    ∀ p ∈ l, ∃ r, fapp (l.foldl (fun h p => (ufFind h p (findFuel N)).2) g) p = r ∧
      isRootF (l.foldl (fun h p => (ufFind h p (findFuel N)).2) g) r := by
  intro l
  induction l with
  | nil =>
    intro g B _ hd
    refine ⟨RootPres.refl g, hd, ?_⟩
    intro p hp
    exact absurd hp (List.not_mem_nil p)
  | cons q l IH =>
    intro g B hB hd
    rw [List.foldl_cons]
    obtain ⟨j, hjle, hj⟩ := hd q
    obtain ⟨f1a, f1b, f1pres⟩ :=
      ufFind_spec (findFuel N) g q (iterF g j q) j rfl hj (le_trans hjle hB)
    have hd1 : DepthLe (ufFind g q (findFuel N)).2 B := f1pres.depthLe hd
    obtain ⟨pres2, d2, hall⟩ := IH (ufFind g q (findFuel N)).2 B hB hd1
    refine ⟨f1pres.trans pres2, d2, ?_⟩
    intro p hp
    rcases List.mem_cons.mp hp with rfl | hp'
    · have hroot1 : isRootF (ufFind g p (findFuel N)).2 (ufFind g p (findFuel N)).1 := by
        rw [f1a]
        exact f1pres.isRoot hj
      refine ⟨(ufFind g p (findFuel N)).1, ?_, pres2.isRoot hroot1⟩
      exact pres2.parent_stable (f1a ▸ f1b) hroot1
    · exact hall p hp'

theorem nbr_opposites (p : Pos) (d : Nat) (hd : d < 4) :
    nbr (nbr p d) (opposites d) = p := by
  obtain ⟨a, c⟩ := p
  interval_cases d <;>
    (refine Prod.ext ?_ ?_ <;> simp [nbr, moves, opposites] <;> omega)

theorem baseRel_conn (N : Nat) (b : Board) (hB : BorderInv N b)
    (hM : MirrorInv N b) (x y : Pos) :
    Relation.EqvGen (baseRel b (edgeSeq N)) x y ↔ Conn N b x y := by
  constructor
  · apply Relation.EqvGen.mono
    intro u v huv
    obtain ⟨e, he, hw, hx, hy⟩ := huv
    obtain ⟨hmem, hd12⟩ := (edgeSeq_mem N e).mp he
    have hu : InB N e.1 := (allCells_mem N e.1).mp hmem
    have hdlt : e.2 < 4 := by rcases hd12 with h | h <;> omega
    have hv : InB N (nbr e.1 e.2) := borderInv_step N b e.1 e.2 hB hu hdlt hw
    subst hx; subst hy
    refine ⟨hu, hv, e.2, hdlt, rfl, hw, ?_⟩
    rw [mirrorInv_step N b e.1 e.2 hM hu hv hdlt]
    exact hw
  · intro h
    have h' : Relation.EqvGen (unwalledAdj N b) x y := h
    clear h
    induction h' with
    | rel u v huv =>
      obtain ⟨hu, hv, d, hdlt, hy, hw1, hw2⟩ := huv
      subst hy
      interval_cases d
      · refine Relation.EqvGen.symm _ _ (Relation.EqvGen.rel _ _
          ⟨(nbr u 0, 2), (edgeSeq_mem N _).mpr
            ⟨(allCells_mem N _).mpr hv, Or.inr rfl⟩, hw2, rfl,
            (nbr_opposites u 0 (by omega)).symm⟩)
      · exact Relation.EqvGen.rel _ _
          ⟨(u, 1), (edgeSeq_mem N _).mpr
            ⟨(allCells_mem N _).mpr hu, Or.inl rfl⟩, hw1, rfl, rfl⟩
      · exact Relation.EqvGen.rel _ _
          ⟨(u, 2), (edgeSeq_mem N _).mpr
            ⟨(allCells_mem N _).mpr hu, Or.inr rfl⟩, hw1, rfl, rfl⟩
      · exact Relation.EqvGen.symm _ _ (Relation.EqvGen.rel _ _
          ⟨(nbr u 3, 1), (edgeSeq_mem N _).mpr
            ⟨(allCells_mem N _).mpr hv, Or.inl rfl⟩, hw2, rfl,
            (nbr_opposites u 3 (by omega)).symm⟩)
    | refl u => exact Relation.EqvGen.refl u
    | symm a c _ IH => exact Relation.EqvGen.symm _ _ IH
    | trans a c e _ _ IH1 IH2 => exact Relation.EqvGen.trans _ _ _ IH1 IH2

theorem countP_eq_ncard (N : Nat) (P : Pos → Prop) (pb : Pos → Bool)
    (h : ∀ p ∈ allCells N, pb p = true ↔ P p) :
    (allCells N).countP pb = Set.ncard {q : Pos | InB N q ∧ P q} := by
  classical
  have e1 : {q : Pos | InB N q ∧ P q} =
      ↑((allCells N).toFinset.filter fun q => P q) := by
    ext q
    simp only [Set.mem_setOf_eq, Finset.coe_filter, List.mem_toFinset,
      allCells_mem]
  have e2 : (allCells N).toFinset.filter (fun q => P q) =
      ((allCells N).filter pb).toFinset := by
    rw [List.toFinset_filter]
    apply Finset.filter_congr
    intro q hq
    rw [List.mem_toFinset] at hq
    exact (h q hq).symm
  rw [e1, Set.ncard_coe_Finset, e2,
    List.toFinset_card_of_nodup ((allCells_nodup N).filter pb)]
  exact List.countP_eq_length_filter pb (allCells N)

theorem check_endgame_char (N : Nat) (b : Board) (p0_pos p1_pos : Pos)
    (hB : BorderInv N b) (hM : MirrorInv N b) :
    ((check_endgame N b p0_pos p1_pos).1 = true ↔ ¬ Conn N b p0_pos p1_pos) ∧
    (check_endgame N b p0_pos p1_pos).2.1 =
      Set.ncard {q : Pos | InB N q ∧ Conn N b p0_pos q} ∧
    (check_endgame N b p0_pos p1_pos).2.2 =
      Set.ncard {q : Pos | InB N q ∧ Conn N b p1_pos q} := by
  have hEfuel : 0 + (edgeSeq N).length + 1 ≤ findFuel N := by
    rw [edgeSeq_length]
    unfold findFuel
    rw [Nat.mul_assoc]
    omega
  obtain ⟨hdF1, hRE1⟩ := foldl_edge_inv N b (edgeSeq N) [] 0 (fun _ _ => False)
    hEfuel depthLe_nil (fun x y => (rootEq_nil x y).trans eqvGen_bot.symm)
  have hlen : 0 + (edgeSeq N).length = 2 * (N * N) := by
    rw [edgeSeq_length]
    omega
  rw [hlen] at hdF1
  have hfuel2 : 2 * (N * N) ≤ findFuel N := by
    unfold findFuel
    rw [Nat.mul_assoc]
    omega
  obtain ⟨presC, hdC, hparC⟩ := compress_fold N (allCells N)
    ((edgeSeq N).foldl (edgeStep N b) []) (2 * (N * N)) hfuel2 hdF1
  have hckey : ufFinal N b = (allCells N).foldl
      (fun g p => (ufFind g p (findFuel N)).2)
      ((edgeSeq N).foldl (edgeStep N b) []) := rfl
  rw [← hckey] at presC hdC hparC
  obtain ⟨j0, hj0le, hj0⟩ := hdC p0_pos
  obtain ⟨g0a, g0b, g0pres⟩ := ufFind_spec (findFuel N) (ufFinal N b) p0_pos
    (iterF (ufFinal N b) j0 p0_pos) j0 rfl hj0
    (le_trans hj0le (by unfold findFuel; rw [Nat.mul_assoc]; omega))
  have hfp0 : findP0 N b p0_pos = ufFind (ufFinal N b) p0_pos (findFuel N) := rfl
  rw [← hfp0] at g0a g0b g0pres
  have hd0 : DepthLe (findP0 N b p0_pos).2 (2 * (N * N)) := g0pres.depthLe hdC
  obtain ⟨j1, hj1le, hj1⟩ := hd0 p1_pos
  obtain ⟨g1a, g1b, g1pres⟩ := ufFind_spec (findFuel N) (findP0 N b p0_pos).2
    p1_pos (iterF (findP0 N b p0_pos).2 j1 p1_pos) j1 rfl hj1
    (le_trans hj1le (by unfold findFuel; rw [Nat.mul_assoc]; omega))
  have hfp1 : findP1 N b p0_pos p1_pos =
      ufFind (findP0 N b p0_pos).2 p1_pos (findFuel N) := rfl
  rw [← hfp1] at g1a g1b g1pres
  have presAll : RootPres ((edgeSeq N).foldl (edgeStep N b) [])
      (findP1 N b p0_pos p1_pos).2 := presC.trans (g0pres.trans g1pres)
  have hRE4 : ∀ x y, rootEqF (findP1 N b p0_pos p1_pos).2 x y ↔
      Conn N b x y := by
    intro x y
    exact ((presAll.rootEq hdF1 x y).symm).trans ((hRE1 x y).trans
      ((eqvGen_ext fun u v => (false_or _).to_iff).trans (baseRel_conn N b hB hM x y)))
  have hr0 : RootRel (findP1 N b p0_pos p1_pos).2 p0_pos
      (findP0 N b p0_pos).1 := by
    have h1 : RootRel (ufFinal N b) p0_pos (findP0 N b p0_pos).1 := by
      rw [g0a]
      exact ⟨hj0, j0, rfl⟩
    exact g1pres.rootRel (g0pres.rootRel h1)
  have hr1 : RootRel (findP1 N b p0_pos p1_pos).2 p1_pos
      (findP1 N b p0_pos p1_pos).1 := by
    have h1 : RootRel (findP0 N b p0_pos).2 p1_pos
        (findP1 N b p0_pos p1_pos).1 := by
      rw [g1a]
      exact ⟨hj1, j1, rfl⟩
    exact g1pres.rootRel h1
  have hend : ((findP0 N b p0_pos).1 = (findP1 N b p0_pos p1_pos).1) ↔
      Conn N b p0_pos p1_pos := by
    rw [← hRE4 p0_pos p1_pos]
    constructor
    · intro h
      exact ⟨(findP1 N b p0_pos p1_pos).1, h ▸ hr0, hr1⟩
    · rintro ⟨s, hs0, hs1⟩
      rw [RootRel_unique _ p0_pos _ s hr0 hs0,
        RootRel_unique _ p1_pos _ s hr1 hs1]
  have hpar4 : ∀ p ∈ allCells N, ∃ r,
      fapp (findP1 N b p0_pos p1_pos).2 p = r ∧
      isRootF (findP1 N b p0_pos p1_pos).2 r := by
    intro p hp
    obtain ⟨r, hre, hrr⟩ := hparC p hp
    refine ⟨r, ?_, g1pres.isRoot (g0pres.isRoot hrr)⟩
    exact g1pres.parent_stable (g0pres.parent_stable hre hrr)
      (g0pres.isRoot hrr)
  have hscore : ∀ (w rt : Pos), RootRel (findP1 N b p0_pos p1_pos).2 w rt →
      ∀ p ∈ allCells N,
      ((fapp (findP1 N b p0_pos p1_pos).2 p = rt) ↔ Conn N b w p) := by
    intro w rt hrt p hp
    obtain ⟨r, hre, hrr⟩ := hpar4 p hp
    have hRRp : RootRel (findP1 N b p0_pos p1_pos).2 p r :=
      ⟨hrr, 1, by rw [iterF_succ', iterF_zero, hre]⟩
    rw [← hRE4 w p]
    constructor
    · intro h
      refine ⟨rt, hrt, hrt.1, 1, ?_⟩
      rw [iterF_succ', iterF_zero]
      exact h
    · rintro ⟨s, hs1, hs2⟩
      have e1 : s = rt := RootRel_unique _ w s rt hs1 hrt
      have e2 : s = r := RootRel_unique _ p s r hs2 hRRp
      rw [hre, ← e2, e1]
  have hs0 : p0_score N b p0_pos p1_pos =
      Set.ncard {q : Pos | InB N q ∧ Conn N b p0_pos q} := by
    unfold p0_score
    apply countP_eq_ncard N (fun q => Conn N b p0_pos q)
    intro p hp
    simp only [decide_eq_true_eq]
    exact hscore p0_pos (findP0 N b p0_pos).1 hr0 p hp
  have hs1 : p1_score N b p0_pos p1_pos =
      Set.ncard {q : Pos | InB N q ∧ Conn N b p1_pos q} := by
    unfold p1_score
    apply countP_eq_ncard N (fun q => Conn N b p1_pos q)
    intro p hp
    simp only [decide_eq_true_eq]
    exact hscore p1_pos (findP1 N b p0_pos p1_pos).1 hr1 p hp
  by_cases hif : (findP0 N b p0_pos).1 = (findP1 N b p0_pos p1_pos).1
  · have hce : check_endgame N b p0_pos p1_pos =
        (false, p0_score N b p0_pos p1_pos, p1_score N b p0_pos p1_pos) := by
      rw [check_endgame, if_pos hif]
    rw [hce]
    exact ⟨iff_of_false Bool.false_ne_true (not_not_intro (hend.mp hif)),
      hs0, hs1⟩
  · have hce : check_endgame N b p0_pos p1_pos =
        (true, p0_score N b p0_pos p1_pos, p1_score N b p0_pos p1_pos) := by
      rw [check_endgame, if_neg hif]
    rw [hce]
    exact ⟨iff_of_true rfl (fun hc => hif (hend.mpr hc)), hs0, hs1⟩

/-- C3: for every board satisfying the border and mirroring invariants and
every pair of positions, `check_endgame` returns `ended = true` iff the two
players' cells lie in different connected components of the grid graph
whose edges are the unwalled adjacencies; the two scores equal the number
of cells in player 0's and player 1's component respectively; and when not
ended the two returned scores are equal. -/
theorem check_endgame_spec (N : Nat) (b : Board) (p0_pos p1_pos : Pos)
    (hB : BorderInv N b) (hM : MirrorInv N b) :
    ((check_endgame N b p0_pos p1_pos).1 = true ↔
      ¬ Conn N b p0_pos p1_pos) ∧
    (check_endgame N b p0_pos p1_pos).2.1 =
      Set.ncard {q : Pos | InB N q ∧ Conn N b p0_pos q} ∧
    (check_endgame N b p0_pos p1_pos).2.2 =
      Set.ncard {q : Pos | InB N q ∧ Conn N b p1_pos q} ∧
    ((check_endgame N b p0_pos p1_pos).1 = false →
      (check_endgame N b p0_pos p1_pos).2.1 =
        (check_endgame N b p0_pos p1_pos).2.2) := by
  obtain ⟨h1, h2, h3⟩ := check_endgame_char N b p0_pos p1_pos hB hM
  refine ⟨h1, h2, h3, ?_⟩
  intro hf
  have hconn : Conn N b p0_pos p1_pos := by
    by_contra hc
    have ht := h1.mpr hc
    rw [hf] at ht
    exact Bool.false_ne_true ht
  have hseteq : {q : Pos | InB N q ∧ Conn N b p0_pos q} =
      {q : Pos | InB N q ∧ Conn N b p1_pos q} := by
    ext q
    simp only [Set.mem_setOf_eq]
    constructor
    · rintro ⟨hq, hcq⟩
      exact ⟨hq, Relation.EqvGen.trans _ _ _
        (Relation.EqvGen.symm _ _ hconn) hcq⟩
    · rintro ⟨hq, hcq⟩
      exact ⟨hq, Relation.EqvGen.trans _ _ _ hconn hcq⟩
  rw [h2, h3, hseteq]

/-- Closed instance of C3 at `N = 2` on the borders-only board with the two
players at opposite corners. -/
theorem check_endgame_spec_witness :
    BorderInv 2 (initBoard 2) ∧ MirrorInv 2 (initBoard 2) ∧
    (((check_endgame 2 (initBoard 2) (0, 0) (1, 1)).1 = true ↔
      ¬ Conn 2 (initBoard 2) (0, 0) (1, 1)) ∧
    (check_endgame 2 (initBoard 2) (0, 0) (1, 1)).2.1 =
      Set.ncard {q : Pos | InB 2 q ∧ Conn 2 (initBoard 2) (0, 0) q} ∧
    (check_endgame 2 (initBoard 2) (0, 0) (1, 1)).2.2 =
      Set.ncard {q : Pos | InB 2 q ∧ Conn 2 (initBoard 2) (1, 1) q} ∧
    ((check_endgame 2 (initBoard 2) (0, 0) (1, 1)).1 = false →
      (check_endgame 2 (initBoard 2) (0, 0) (1, 1)).2.1 =
        (check_endgame 2 (initBoard 2) (0, 0) (1, 1)).2.2)) :=
  ⟨by decide, by decide,
    check_endgame_spec 2 (initBoard 2) (0, 0) (1, 1) (by decide) (by decide)⟩

/-- C6 counterexample: a 3×3 board satisfying the border and mirroring
invariants on which the walls cut the grid into three components, of sizes
1, 5 and 3; the players sit in the 5- and 3-cell components, the game is
ended, and the two scores sum to 8, not `N² = 9`: the isolated corner cell
is counted in neither score. -/
theorem endgame_score_sum_counterexample :
    (check_endgame 3 cb6 (1, 0) (2, 2)).1 = true ∧
    (check_endgame 3 cb6 (1, 0) (2, 2)).2.1 +
      (check_endgame 3 cb6 (1, 0) (2, 2)).2.2 ≠ 3 * 3 := by
  decide

/-- C6 (amended): on a board satisfying the border and mirroring invariants,
when `check_endgame` reports `ended = true` each score equals the cell count
of the corresponding player's component, and the two scores sum to `N²`
exactly when those two components cover the whole board — with three or
more components the sum falls short. -/
theorem check_endgame_score_sum (N : Nat) (b : Board) (p0_pos p1_pos : Pos)
    (hB : BorderInv N b) (hM : MirrorInv N b)
    (hend : (check_endgame N b p0_pos p1_pos).1 = true) :
    (check_endgame N b p0_pos p1_pos).2.1 =
      Set.ncard {q : Pos | InB N q ∧ Conn N b p0_pos q} ∧
    (check_endgame N b p0_pos p1_pos).2.2 =
      Set.ncard {q : Pos | InB N q ∧ Conn N b p1_pos q} ∧
    ((check_endgame N b p0_pos p1_pos).2.1 +
        (check_endgame N b p0_pos p1_pos).2.2 = N * N ↔
      ∀ q : Pos, InB N q → Conn N b p0_pos q ∨ Conn N b p1_pos q) := by
  obtain ⟨h1, h2, h3⟩ := check_endgame_char N b p0_pos p1_pos hB hM
  have hnc : ¬ Conn N b p0_pos p1_pos := h1.mp hend
  have hAeq : {q : Pos | InB N q} = ↑(allCells N).toFinset := by
    ext q
    simp [List.mem_toFinset, allCells_mem]
  have hAfin : Set.Finite {q : Pos | InB N q} := by
    rw [hAeq]
    exact (allCells N).toFinset.finite_toSet
  have hAcard : Set.ncard {q : Pos | InB N q} = N * N := by
    rw [hAeq, Set.ncard_coe_Finset,
      List.toFinset_card_of_nodup (allCells_nodup N), allCells_length]
  have hsub0 : {q : Pos | InB N q ∧ Conn N b p0_pos q} ⊆
      {q : Pos | InB N q} := fun q hq => hq.1
  have hsub1 : {q : Pos | InB N q ∧ Conn N b p1_pos q} ⊆
      {q : Pos | InB N q} := fun q hq => hq.1
  have hfin0 := hAfin.subset hsub0
  have hfin1 := hAfin.subset hsub1
  have hdisj : Disjoint {q : Pos | InB N q ∧ Conn N b p0_pos q}
      {q : Pos | InB N q ∧ Conn N b p1_pos q} := by
    rw [Set.disjoint_left]
    rintro q ⟨_, hc0⟩ ⟨_, hc1⟩
    exact hnc (Relation.EqvGen.trans _ _ _ hc0 (Relation.EqvGen.symm _ _ hc1))
  have hu : ({q : Pos | InB N q ∧ Conn N b p0_pos q} ∪
      {q : Pos | InB N q ∧ Conn N b p1_pos q}).ncard =
      Set.ncard {q : Pos | InB N q ∧ Conn N b p0_pos q} +
      Set.ncard {q : Pos | InB N q ∧ Conn N b p1_pos q} :=
    Set.ncard_union_eq hdisj hfin0 hfin1
  refine ⟨h2, h3, ?_⟩
  rw [h2, h3, ← hu, ← hAcard]
  constructor
  · intro hcard
    have hsubU : {q : Pos | InB N q ∧ Conn N b p0_pos q} ∪
        {q : Pos | InB N q ∧ Conn N b p1_pos q} ⊆ {q : Pos | InB N q} :=
      Set.union_subset hsub0 hsub1
    have heq := Set.eq_of_subset_of_ncard_le hsubU (le_of_eq hcard.symm) hAfin
    intro q hq
    have hmem : q ∈ {q : Pos | InB N q ∧ Conn N b p0_pos q} ∪
        {q : Pos | InB N q ∧ Conn N b p1_pos q} := by
      rw [heq]
      exact hq
    rcases hmem with h | h
    · exact Or.inl h.2
    · exact Or.inr h.2
  · intro hcov
    have heq : {q : Pos | InB N q ∧ Conn N b p0_pos q} ∪
        {q : Pos | InB N q ∧ Conn N b p1_pos q} = {q : Pos | InB N q} := by
      apply Set.Subset.antisymm (Set.union_subset hsub0 hsub1)
      intro q hq
      rcases hcov q hq with h | h
      · exact Or.inl ⟨hq, h⟩
      · exact Or.inr ⟨hq, h⟩
    rw [heq]

/-- Closed instance of the amended C6 on the three-component 3×3 board:
the hypotheses hold, the game is ended, and (since the isolated corner lies
in neither component) the sum condition's right-hand side fails there. -/
theorem check_endgame_score_sum_witness :
    BorderInv 3 cb6 ∧ MirrorInv 3 cb6 ∧
    (check_endgame 3 cb6 (1, 0) (2, 2)).1 = true ∧
    ((check_endgame 3 cb6 (1, 0) (2, 2)).2.1 =
      Set.ncard {q : Pos | InB 3 q ∧ Conn 3 cb6 (1, 0) q} ∧
    (check_endgame 3 cb6 (1, 0) (2, 2)).2.2 =
      Set.ncard {q : Pos | InB 3 q ∧ Conn 3 cb6 (2, 2) q} ∧
    ((check_endgame 3 cb6 (1, 0) (2, 2)).2.1 +
        (check_endgame 3 cb6 (1, 0) (2, 2)).2.2 = 3 * 3 ↔
      ∀ q : Pos, InB 3 q → Conn 3 cb6 (1, 0) q ∨ Conn 3 cb6 (2, 2) q)) :=
  ⟨by decide, by decide, by decide,
    check_endgame_score_sum 3 cb6 (1, 0) (2, 2) (by decide) (by decide)
      (by decide)⟩
